import Mathlib

/-!
# A shallow embedding of the sandboxfs node layer

This file embeds the node layer of the sandboxfs virtual filesystem
(`src/nodes/dir.rs` and `src/nodes/file.rs`) in Lean 4 and proves properties
of the embedded operations.

Modelling conventions:
* Host paths are lists of path-component names (`HostPath`); `path.join(name)`
  becomes `path ++ [name]`.
* Machine integers (`u64` inodes, `u32` sizes, permission bits) are `Nat`;
  timestamps are `Int`.
* `Arc<Node>` references are represented by the node's inode, resolved
  through a store mapping inodes to node records; the identifier allocator
  never reuses an inode, so in every reachable state the inode determines
  the node object uniquely.
* Interior mutability behind each node's mutex becomes explicit state
  passing over a `Sys` record holding the node store, the deduplication
  cache and the identifier allocator; the embedded operations are
  sequential, matching one kernel request executing under the node locks.
* Rust panics (`panic!`, `assert!`, `expect`, out-of-bounds indexing) are
  modelled as an explicit `panicked` outcome, and fallible host calls
  return `Except`.
-/

/-- A host or virtual path, as its list of normal components. -/
abbrev HostPath := List String

/-- File types distinguished by the node layer (the remaining variants of
`fuse::FileType` are never distinguished by this code and are collapsed
into `other`). -/
inductive FileType where
  | directory
  | regularFile
  | symlink
  | other
  deriving DecidableEq, Repr

/-- The kernel-facing attribute record, mirroring the fields of
`fuse::FileAttr`. -/
structure FileAttr where
  ino : Nat
  size : Nat
  blocks : Nat
  atime : Int
  mtime : Int
  ctime : Int
  crtime : Int
  kind : FileType
  perm : Nat
  nlink : Nat
  uid : Nat
  gid : Nat
  rdev : Nat
  flags : Nat
  deriving DecidableEq, Repr

/-- Host filesystem metadata as returned by `fs::symlink_metadata`
(`fs::Metadata`): the fields the node layer reads. -/
structure FsMetadata where
  ftype : FileType
  size : Nat
  blocks : Nat
  atime : Int
  mtime : Int
  ctime : Int
  crtime : Int
  perm : Nat
  nlink : Nat
  uid : Nat
  gid : Nat
  rdev : Nat
  deriving DecidableEq, Repr

/-- `fs::Metadata::is_dir`. -/
def FsMetadata.is_dir (md : FsMetadata) : Bool :=
  md.ftype = FileType.directory

/-- Errno values used by the node layer. -/
def epermErr : Nat := 1

/-- `ENOENT`. -/
def enoentErr : Nat := 2

/-- `EIO`. -/
def eioErr : Nat := 5

/-- `EINVAL`. -/
def einvalErr : Nat := 22

/-- A host I/O error: either `io::ErrorKind::NotFound` or any other error,
carrying the errno it maps to when converted to a kernel error. -/
inductive HostError where
  | notFound
  | other (errno : Nat)
  deriving DecidableEq, Repr

/-- The errno a host error maps to when propagated as a kernel error. -/
def HostError.errno : HostError → Nat
  | .notFound => enoentErr
  | .other e => e

/-- One entry yielded by iterating `fs::read_dir`: its file name and the
result of `entry.metadata()`. -/
structure HostDirent where
  file_name : String
  metadata : Except HostError FsMetadata
  deriving Repr

/-- Host open options (`fs::OpenOptions`) as configured by the flag
translator. -/
structure OpenOptions where
  read : Bool
  write : Bool
  deriving DecidableEq, Repr

/-- The host filesystem, as the outcomes of the host calls the node layer
issues.  `stat` is `fs::symlink_metadata`; `read_dir` is `fs::read_dir`
together with the iteration over its entries; `openf` is
`OpenOptions::open`. -/
structure HostFS where
  stat : HostPath → Except HostError FsMetadata
  read_dir : HostPath → Except HostError (List (Except HostError HostDirent))
  openf : HostPath → OpenOptions → Except HostError Unit

/-- Ambient process state: the host filesystem, the current time
(`time::get_time`) and the current user (`unistd::getuid`/`getgid`). -/
structure Env where
  host : HostFS
  now : Int
  uid : Nat
  gid : Nat

section AList

variable {α : Type} {β : Type} [DecidableEq α]

/-- Lookup in an association list (the embedding of `HashMap::get`). -/
def alget : List (α × β) → α → Option β
  | [], _ => none
  | (k', v) :: rest, k => if k' = k then some v else alget rest k

/-- Insertion into an association list, replacing any existing binding of
the key (the embedding of `HashMap::insert`). -/
def alinsert : List (α × β) → α → β → List (α × β)
  | [], k, v => [(k, v)]
  | (k', v') :: rest, k, v =>
      if k' = k then (k, v) :: rest else (k', v') :: alinsert rest k v

@[simp] theorem alget_nil (k : α) : alget ([] : List (α × β)) k = none := rfl

theorem alget_cons (k' : α) (v : β) (rest : List (α × β)) (k : α) :
    alget ((k', v) :: rest) k = if k' = k then some v else alget rest k := rfl

@[simp] theorem alget_alinsert_self (l : List (α × β)) (k : α) (v : β) :
    alget (alinsert l k v) k = some v := by
  induction l with
  | nil => simp [alget, alinsert]
  | cons p rest ih =>
      obtain ⟨k', v'⟩ := p
      by_cases h : k' = k <;> simp [alget, alinsert, h, ih]

theorem alget_alinsert_ne (l : List (α × β)) (k k' : α) (v : β) (h : k ≠ k') :
    alget (alinsert l k v) k' = alget l k' := by
  induction l with
  | nil => simp [alget, alinsert, h]
  | cons p rest ih =>
      obtain ⟨k₀, v₀⟩ := p
      by_cases h0 : k₀ = k
      · subst h0
        simp [alget, alinsert, h]
      · by_cases h1 : k₀ = k'
        · subst h1
          simp [alget, alinsert, h0]
        · simp [alget, alinsert, h0, h1, ih]

theorem mem_alinsert (l : List (α × β)) (k : α) (v : β) (p : α × β)
    (hp : p ∈ alinsert l k v) : p = (k, v) ∨ p ∈ l := by
  induction l with
  | nil => simpa [alinsert] using hp
  | cons q rest ih =>
      obtain ⟨k₀, v₀⟩ := q
      by_cases h0 : k₀ = k
      · simp only [alinsert, h0, if_pos rfl] at hp
        rcases List.mem_cons.mp hp with h | h
        · exact Or.inl h
        · exact Or.inr (List.mem_cons_of_mem _ h)
      · simp only [alinsert, if_neg h0] at hp
        rcases List.mem_cons.mp hp with h | h
        · exact Or.inr (List.mem_cons.mpr (Or.inl h))
        · rcases ih h with h' | h'
          · exact Or.inl h'
          · exact Or.inr (List.mem_cons_of_mem _ h')

theorem alget_mem (l : List (α × β)) (k : α) (v : β) (h : alget l k = some v) :
    (k, v) ∈ l := by
  induction l with
  | nil => simp [alget] at h
  | cons q rest ih =>
      obtain ⟨k₀, v₀⟩ := q
      by_cases h0 : k₀ = k
      · subst h0
        simp [alget] at h
        subst h
        exact List.mem_cons_self _ _
      · simp [alget, h0] at h
        exact List.mem_cons_of_mem _ (ih h)

end AList

/-- A directory entry (`Dirent` in `dir.rs`): the child node (an
`Arc<Node>`, represented by its inode) and whether the entry was created by
an explicit mapping request. -/
structure Dirent where
  node : Nat
  explicit_mapping : Bool
  deriving DecidableEq, Repr

/-- The mutable state of a directory node (`MutableDir`). -/
structure MutableDir where
  parent : Nat
  underlying_path : Option HostPath
  attr : FileAttr
  children : List (String × Dirent)
  deriving DecidableEq, Repr

/-- A directory node (`Dir`): the immutable writability flag plus the
lock-guarded mutable state.  The inode is the node's key in the store. -/
structure DirNode where
  writable : Bool
  state : MutableDir
  deriving DecidableEq, Repr

/-- The mutable state of a file node (`MutableFile`). -/
structure MutableFile where
  underlying_path : Option HostPath
  attr : FileAttr
  deriving DecidableEq, Repr

/-- A file node (`File`). -/
structure FileNode where
  writable : Bool
  state : MutableFile
  deriving DecidableEq, Repr

/-- Modelled from the spec: the symlink node variant is not under `src/`;
§2 describes it as structurally parallel to the file node, so it carries
the same record. -/
structure SymlinkNode where
  writable : Bool
  state : MutableFile
  deriving DecidableEq, Repr

/-- A node of the virtual tree (the `Node` trait object). -/
inductive NodeData where
  | dir (d : DirNode)
  | file (f : FileNode)
  | symlink (l : SymlinkNode)
  deriving DecidableEq, Repr

/-- The system state threaded through the operations: the store of live
nodes keyed by inode, the deduplication cache mapping host paths to the
inode already representing them, and the identifier allocator's next fresh
inode. -/
structure Sys where
  nodes : List (Nat × NodeData)
  cache : List (HostPath × Nat)
  nextIno : Nat
  deriving DecidableEq, Repr

/-- Every live inode is below the allocator's next fresh value; this is the
monotonic, no-reuse guarantee of the identifier allocator (spec §6) and
holds in every reachable state. -/
def Sys.WF (s : Sys) : Prop :=
  ∀ p ∈ s.nodes, p.1 < s.nextIno

instance (s : Sys) : Decidable s.WF := by
  unfold Sys.WF
  infer_instance

/-- Replace (or add) the node stored at an inode. -/
def Sys.setNode (s : Sys) (ino : Nat) (nd : NodeData) : Sys :=
  { s with nodes := alinsert s.nodes ino nd }

/-- Allocate a fresh inode (`ids.next()`) and store a node under it. -/
def Sys.addNode (s : Sys) (nd : NodeData) : Sys × Nat :=
  let ino := s.nextIno
  ({ s with nodes := alinsert s.nodes ino nd, nextIno := ino + 1 }, ino)

/-- `file_type_cached` of a stored node: `Dir` always answers directory;
`File` and the symlink variant answer the cached attribute's kind.  A
`Dirent` always references a live node, so the lookup never misses in a
reachable state. -/
def NodeData.file_type_cached : NodeData → FileType
  | .dir _ => .directory
  | .file f => f.state.attr.kind
  | .symlink l => l.state.attr.kind

/-- `file_type_cached` through an `Arc<Node>` reference. -/
def Sys.file_type_cached (s : Sys) (ino : Nat) : Option FileType :=
  (alget s.nodes ino).map NodeData.file_type_cached

/-- Modelled from the spec: `conv::attr_fs_to_fuse` (the external Attribute
Translator, §2/§6, not under `src/`) converts host metadata into the
kernel-facing attribute record for the given inode. -/
def attr_fs_to_fuse (_path : HostPath) (inode : Nat) (md : FsMetadata) : FileAttr :=
  { ino := inode
    size := md.size
    blocks := md.blocks
    atime := md.atime
    mtime := md.mtime
    ctime := md.ctime
    crtime := md.crtime
    kind := md.ftype
    perm := md.perm
    nlink := md.nlink
    uid := md.uid
    gid := md.gid
    rdev := md.rdev
    flags := 0 }

/-- Modelled from the spec: `conv::filetype_fs_to_fuse` (external
translator) maps a host file type to the kernel-facing type tag; in this
embedding the two sides use the same type. -/
def filetype_fs_to_fuse (_path : HostPath) (t : FileType) : FileType := t

/-- `File::supports_type`: file nodes represent everything except
directories and symlinks. -/
def supports_type (t : FileType) : Bool :=
  !(t = FileType.directory) && !(t = FileType.symlink)

/-- `Dir::new_empty`: a scaffold directory with timestamps `now`, ownership
of the current user, permissions fixed to `0o555`, no backing path, and
`writable = false`. -/
def Dir.new_empty (inode : Nat) (parent : Option Nat) (env : Env) : DirNode :=
  { writable := false
    state :=
      { parent := parent.getD inode
        underlying_path := none
        attr :=
          { ino := inode
            kind := FileType.directory
            nlink := 2
            size := 2
            blocks := 1
            atime := env.now
            mtime := env.now
            ctime := env.now
            crtime := env.now
            perm := 0o555
            uid := env.uid
            gid := env.gid
            rdev := 0
            flags := 0 }
        children := [] } }

/-- `Dir::new_mapped`: a directory backed by `underlying_path` with the
given stat data.  Every caller checks `fs_attr.is_dir()` first (the source
panics otherwise), so the construction itself is total here. -/
def Dir.new_mapped (inode : Nat) (underlying_path : HostPath) (fs_attr : FsMetadata)
    (writable : Bool) : DirNode :=
  { writable := writable
    state :=
      { parent := inode
        underlying_path := some underlying_path
        attr := attr_fs_to_fuse underlying_path inode fs_attr
        children := [] } }

/-- `File::new_mapped`: a file backed by `underlying_path`.  Every caller
checks `supports_type` first (the source panics otherwise). -/
def File.new_mapped (inode : Nat) (underlying_path : HostPath) (fs_attr : FsMetadata)
    (writable : Bool) : FileNode :=
  { writable := writable
    state :=
      { underlying_path := some underlying_path
        attr := attr_fs_to_fuse underlying_path inode fs_attr } }

/-- Modelled from the spec: the symlink analogue of `File::new_mapped`
(§2: structurally parallel to the file node). -/
def Symlink.new_mapped (inode : Nat) (underlying_path : HostPath) (fs_attr : FsMetadata)
    (writable : Bool) : SymlinkNode :=
  { writable := writable
    state :=
      { underlying_path := some underlying_path
        attr := attr_fs_to_fuse underlying_path inode fs_attr } }

/-- Modelled from the spec: `Cache::get_or_create` (the external Node
Deduplication Cache, §2/§6, not under `src/`): given a host path and its
freshly-stat'd metadata, return the node already representing that path,
or construct and register a new one, choosing the variant by the metadata's
type. -/
def Cache.get_or_create (s : Sys) (path : HostPath) (md : FsMetadata) (writable : Bool) :
    Sys × Nat :=
  match alget s.cache path with
  | some ino => (s, ino)
  | none =>
      let ino := s.nextIno
      let nd : NodeData :=
        match md.ftype with
        | .directory => .dir (Dir.new_mapped ino path md writable)
        | .symlink => .symlink (Symlink.new_mapped ino path md writable)
        | _ => .file (File.new_mapped ino path md writable)
      ({ nodes := alinsert s.nodes ino nd
         cache := alinsert s.cache path ino
         nextIno := ino + 1 }, ino)

/-- Store back a directory node with an updated children table; the
embedding of assigning `state.children` under the directory's lock. -/
def Sys.setDirChildren (s : Sys) (ino : Nat) (d : DirNode)
    (c : List (String × Dirent)) : Sys :=
  s.setNode ino (.dir { d with state := { d.state with children := c } })

/-- `split_components`: first normal component and the rest.  On an empty
slice the source panics (`debug_assert!` in debug builds, out-of-bounds
indexing in release builds); the `none` result stands for that panic. -/
def split_components : List String → Option (String × List String)
  | [] => none
  | name :: rest => some (name, rest)

/-- Outcome of `Dir::map` (`Result<(), Error>` plus the possibility of a
panic).  Errors carry the state as mutated before the failure, matching
the Rust, where mutations already applied under the lock persist. -/
inductive MapOutcome where
  | ok (sys : Sys)
  | err (e : String) (sys : Sys)
  | panicked (msg : String)
  deriving DecidableEq, Repr

/-- Outcome of a `NodeResult` operation, plus the possibility of a panic. -/
inductive Outcome (A : Type) where
  | ok (val : A) (sys : Sys)
  | err (errno : Nat) (sys : Sys)
  | panicked (msg : String)
  deriving DecidableEq, Repr

/-- `Dir::new_scaffold_child`: create the node for an intermediate mapping
component.  If this directory is backed, probe `backing_path/name`: a host
directory yields a mapped child inheriting this directory's writability;
anything else (non-directory, probe error, or an unbacked directory) yields
an empty scaffold child.  Errors are logged, never reported.  Returns the
state extended with the new node and the child's fresh inode; the caller
inserts it into the children table. -/
def Dir.new_scaffold_child (s : Sys) (selfIno : Nat) (d : DirNode) (name : String)
    (env : Env) : Sys × Nat :=
  match d.state.underlying_path with
  | some path =>
      let child_path := path ++ [name]
      match env.host.stat child_path with
      | .ok fs_attr =>
          if fs_attr.is_dir then
            Sys.addNode s (.dir (Dir.new_mapped s.nextIno child_path fs_attr d.writable))
          else
            Sys.addNode s (.dir (Dir.new_empty s.nextIno (some selfIno) env))
      | .error _ =>
          Sys.addNode s (.dir (Dir.new_empty s.nextIno (some selfIno) env))
  | none => Sys.addNode s (.dir (Dir.new_empty s.nextIno (some selfIno) env))

/-- The `ensure!` message of `Dir::map`. -/
def alreadyMappedMsg : String := "Already mapped"

/-- The panic standing for `split_components` on an empty slice. -/
def emptyComponentsMsg : String := "split_components given an empty list"

/-- The panic standing for dispatching `map` on a node variant that does
not support it (spec §4.1: unsupported operations are not exposed). -/
def mapOnNonDirMsg : String := "map called on a non-directory node"

/-- `Dir::map` dispatched through a `Node` reference.  Splits off the first
component; descends through an existing child only when its cached type is
a directory (`ensure!`, "Already mapped"); for a final component stats the
host path and binds the node obtained from the deduplication cache; for an
intermediate component synthesizes a scaffold child.  New bindings are
inserted as explicit mappings. -/
def Node.map (env : Env) : List String → Sys → Nat → HostPath → Bool → MapOutcome
  | components, s, selfIno, underlying_path, writable =>
    match alget s.nodes selfIno with
    | some (.dir d) =>
        match components with
        | [] => .panicked emptyComponentsMsg
        | name :: remainder =>
            match alget d.state.children name with
            | some dirent =>
                if Sys.file_type_cached s dirent.node = some FileType.directory then
                  Node.map env remainder s dirent.node underlying_path writable
                else
                  .err alreadyMappedMsg s
            | none =>
                if remainder.isEmpty then
                  match env.host.stat underlying_path with
                  | .error _ => .err "Stat failed" s
                  | .ok fs_attr =>
                      let (s1, child) := Cache.get_or_create s underlying_path fs_attr writable
                      let s2 := s1.setDirChildren selfIno d
                        (alinsert d.state.children name ⟨child, true⟩)
                      .ok s2
                else
                  let (s1, child) := Dir.new_scaffold_child s selfIno d name env
                  let s2 := s1.setDirChildren selfIno d
                    (alinsert d.state.children name ⟨child, true⟩)
                  if Sys.file_type_cached s2 child = some FileType.directory then
                    Node.map env remainder s2 child underlying_path writable
                  else
                    .err alreadyMappedMsg s2
    | _ => .panicked mapOnNonDirMsg

/-- `Dir::getattr` on the locked state: if backed, re-stat; a host entity
that is no longer a directory is a hard EIO; otherwise refresh the cached
attribute.  If unbacked, return the cached attribute unchanged. -/
def Dir.getattr (inode : Nat) (host : HostFS) (d : DirNode) :
    Except Nat (DirNode × FileAttr) :=
  match d.state.underlying_path with
  | some path =>
      match host.stat path with
      | .error e => .error e.errno
      | .ok fs_attr =>
          if !fs_attr.is_dir then
            .error eioErr
          else
            let a := attr_fs_to_fuse path inode fs_attr
            .ok ({ d with state := { d.state with attr := a } }, a)
  | none => .ok (d, d.state.attr)

/-- `File::getattr_locked`: if backed, re-stat; a host entity that is no
longer file-compatible (directory or symlink) is a hard EIO; otherwise
refresh the cached attribute.  If unbacked (post-delete), return the cached
attribute unchanged. -/
def File.getattr_locked (inode : Nat) (host : HostFS) (st : MutableFile) :
    Except Nat (MutableFile × FileAttr) :=
  match st.underlying_path with
  | some path =>
      match host.stat path with
      | .error e => .error e.errno
      | .ok fs_attr =>
          if !supports_type fs_attr.ftype then
            .error eioErr
          else
            let a := attr_fs_to_fuse path inode fs_attr
            .ok ({ st with attr := a }, a)
  | none => .ok (st, st.attr)

/-- Modelled from the spec: the symlink variant's `getattr`, structurally
parallel to the file one with the type check specialised to symlinks. -/
def Symlink.getattr_locked (inode : Nat) (host : HostFS) (st : MutableFile) :
    Except Nat (MutableFile × FileAttr) :=
  match st.underlying_path with
  | some path =>
      match host.stat path with
      | .error e => .error e.errno
      | .ok fs_attr =>
          if !(fs_attr.ftype = FileType.symlink) then
            .error eioErr
          else
            let a := attr_fs_to_fuse path inode fs_attr
            .ok ({ st with attr := a }, a)
  | none => .ok (st, st.attr)

/-- `getattr` dispatched through a `Node` reference; a successful refresh
writes the node's updated state back to the store. -/
def Node.getattr (env : Env) (s : Sys) (ino : Nat) : Outcome FileAttr :=
  match alget s.nodes ino with
  | some (.dir d) =>
      match Dir.getattr ino env.host d with
      | .error e => .err e s
      | .ok (d', a) => .ok a (s.setNode ino (.dir d'))
  | some (.file f) =>
      match File.getattr_locked ino env.host f.state with
      | .error e => .err e s
      | .ok (st', a) => .ok a (s.setNode ino (.file { f with state := st' }))
  | some (.symlink l) =>
      match Symlink.getattr_locked ino env.host l.state with
      | .error e => .err e s
      | .ok (st', a) => .ok a (s.setNode ino (.symlink { l with state := st' }))
  | none => .panicked "dangling node reference"

/-- `Dir::lookup`: a known child is returned with an attribute refreshed by
its own `getattr`; otherwise an unbacked directory answers ENOENT, and a
backed one stats `backing_path/name`, resolves the node through the
deduplication cache, registers it as an implicit entry and returns it. -/
def Dir.lookup (env : Env) (s : Sys) (selfIno : Nat) (name : String) :
    Outcome (Nat × FileAttr) :=
  match alget s.nodes selfIno with
  | some (.dir d) =>
      match alget d.state.children name with
      | some dirent =>
          match Node.getattr env s dirent.node with
          | .ok refreshed_attr s' => .ok (dirent.node, refreshed_attr) s'
          | .err e s' => .err e s'
          | .panicked m => .panicked m
      | none =>
          match d.state.underlying_path with
          | none => .err enoentErr s
          | some underlying_path =>
              let path := underlying_path ++ [name]
              match env.host.stat path with
              | .error e => .err e.errno s
              | .ok fs_attr =>
                  let (s1, child) := Cache.get_or_create s path fs_attr d.writable
                  let attr := attr_fs_to_fuse path child fs_attr
                  let s2 := s1.setDirChildren selfIno d
                    (alinsert d.state.children name ⟨child, false⟩)
                  .ok (child, attr) s2
  | _ => .panicked "lookup called on a non-directory node"

/-- One `(inode, position, type, name)` tuple passed to `reply.add`. -/
structure ReplyEntry where
  ino : Nat
  pos : Nat
  kind : FileType
  name : String
  deriving DecidableEq, Repr

/-- How a `readdir` call finished. -/
inductive RdStatus where
  | ok
  | err (errno : Nat)
  | panicked (msg : String)
  deriving DecidableEq, Repr

/-- Outcome of `Dir::readdir`: the entries already added to the reply (the
reply buffer is mutated in place, so entries emitted before a failure
remain emitted), the final status, and the updated state. -/
structure ReaddirOut where
  reply : List ReplyEntry
  status : RdStatus
  sys : Sys
  deriving DecidableEq, Repr

/-- Phase 2 of `Dir::readdir`: emit every currently-known child whose
entry is an explicit mapping, in table order, at consecutive positions. -/
def readdir_explicit (s : Sys) : List (String × Dirent) → List ReplyEntry → Nat →
    List ReplyEntry × Nat
  | [], reply, pos => (reply, pos)
  | (name, dirent) :: rest, reply, pos =>
      if dirent.explicit_mapping then
        readdir_explicit s rest
          (reply ++ [⟨dirent.node, pos,
            (Sys.file_type_cached s dirent.node).getD FileType.regularFile, name⟩])
          (pos + 1)
      else
        readdir_explicit s rest reply pos

/-- Phase 3 of `Dir::readdir`: walk the host directory's entries; skip a
name whose current child entry is an explicit mapping (already emitted in
phase 2), otherwise resolve the entry through the deduplication cache,
emit it and register it as an implicit child.  A failing entry or a
failing `entry.metadata()` aborts the loop with that error. -/
def readdir_entries (env : Env) (selfIno : Nat) (underlying_path : HostPath) :
    List (Except HostError HostDirent) → List ReplyEntry → Nat → Sys → ReaddirOut
  | [], reply, _pos, s => ⟨reply, .ok, s⟩
  | .error e :: _, reply, _pos, s => ⟨reply, .err e.errno, s⟩
  | .ok entry :: rest, reply, pos, s =>
      match alget s.nodes selfIno with
      | some (.dir d) =>
          let name := entry.file_name
          let skip :=
            match alget d.state.children name with
            | some dirent => dirent.explicit_mapping
            | none => false
          if skip then
            readdir_entries env selfIno underlying_path rest reply pos s
          else
            match entry.metadata with
            | .error e => ⟨reply, .err e.errno, s⟩
            | .ok fs_attr =>
                let path := underlying_path ++ [name]
                let fs_type := filetype_fs_to_fuse path fs_attr.ftype
                let (s1, child) := Cache.get_or_create s path fs_attr d.writable
                let reply2 := reply ++ [⟨child, pos, fs_type, name⟩]
                let s2 := s1.setDirChildren selfIno d
                  (alinsert d.state.children name ⟨child, false⟩)
                readdir_entries env selfIno underlying_path rest reply2 (pos + 1) s2
      | _ => ⟨reply, .panicked "readdir children of a non-directory node", s⟩

/-- `Dir::readdir`: emit `.` and `..` at positions 0 and 1, then the
explicit children, then (for a backed directory) the host directory's
remaining entries. -/
def Dir.readdir (env : Env) (s : Sys) (selfIno : Nat) : ReaddirOut :=
  match alget s.nodes selfIno with
  | some (.dir d) =>
      let reply0 : List ReplyEntry :=
        [⟨selfIno, 0, FileType.directory, "."⟩,
         ⟨d.state.parent, 1, FileType.directory, ".."⟩]
      let (reply1, pos1) := readdir_explicit s d.state.children reply0 2
      match d.state.underlying_path with
      | none => ⟨reply1, .ok, s⟩
      | some underlying_path =>
          match env.host.read_dir underlying_path with
          | .error e => ⟨reply1, .err e.errno, s⟩
          | .ok entries =>
              readdir_entries env selfIno underlying_path entries reply1 pos1 s
  | _ => ⟨[], .panicked "readdir called on a non-directory node", s⟩

/-- The `expect` message of `File::open` on a node without a backing
path. -/
def reopenDeletedMsg : String :=
  "Dont know how to handle a request to reopen a deleted file"

/-- The `assert!` message of `File::delete` on a node without a backing
path. -/
def deleteTwiceMsg : String :=
  "Delete already called or trying to delete an explicit mapping"

/-- Modelled from the spec: `conv::flags_to_openoptions` (external
translator, not under `src/`) translates open flags into host open options
respecting the node's writability flag (§4.6); requesting write access on
a non-writable node is refused. -/
def flags_to_openoptions (flags : Nat) (writable : Bool) : Except Nat OpenOptions :=
  match flags % 4 with
  | 0 => .ok ⟨true, false⟩
  | 1 => if writable then .ok ⟨false, true⟩ else .error epermErr
  | 2 => if writable then .ok ⟨true, true⟩ else .error epermErr
  | _ => .error einvalErr

/-- How a `File::open` call finished. -/
inductive OpenResult where
  | ok (options : OpenOptions) (path : HostPath)
  | err (errno : Nat)
  | panicked (msg : String)
  deriving DecidableEq, Repr

/-- `File::open`: translate the flags, then open the backing path; a node
whose backing path was cleared by `delete` hits the `expect` and the
process aborts. -/
def File.open (host : HostFS) (f : FileNode) (flags : Nat) : OpenResult :=
  match flags_to_openoptions flags f.writable with
  | .error e => .err e
  | .ok options =>
      match f.state.underlying_path with
      | none => .panicked reopenDeletedMsg
      | some path =>
          match host.openf path options with
          | .error e => .err e.errno
          | .ok _ => .ok options path

/-- How a `File::delete` call finished. -/
inductive DeleteResult where
  | ok (f : FileNode)
  | panicked (msg : String)
  deriving DecidableEq, Repr

/-- `File::delete`: clear the backing path; the `assert!` aborts the
process when there is none (double delete or an explicit mapping). -/
def File.delete (f : FileNode) : DeleteResult :=
  match f.state.underlying_path with
  | some _ => .ok { f with state := { f.state with underlying_path := none } }
  | none => .panicked deleteTwiceMsg

/-- `u32::MAX`, the largest byte count `Handle::write` can report. -/
def MAX_WRITE : Nat := 2 ^ 32 - 1

/-- The host file's positioned write (`FileExt::write_at`) on the open
file's contents: splice the buffer in at the offset (zero-filling any gap)
and report how many bytes were written; the host accepts the whole
buffer. -/
def write_at (contents : List Nat) (offset : Nat) (data : List Nat) :
    List Nat × Nat :=
  let padded :=
    if contents.length < offset then
      contents ++ List.replicate (offset - contents.length) 0
    else contents
  (padded.take offset ++ data ++ padded.drop (offset + data.length), data.length)

/-- `Handle::read` for an open host file: a positioned read returning at
most `size` bytes, fewer at end-of-file. -/
def Handle.read (contents : List Nat) (offset : Nat) (size : Nat) : List Nat :=
  (contents.drop offset).take size

/-- `Handle::write` for an open host file: truncate a buffer longer than
`MAX_WRITE` down to `MAX_WRITE` bytes, then do the positioned write and
report the written count. -/
def Handle.write (contents : List Nat) (offset : Nat) (data : List Nat) :
    List Nat × Nat :=
  let data2 := if data.length > MAX_WRITE then data.take MAX_WRITE else data
  write_at contents offset data2

/-! ## Concrete examples used by the closed theorems -/

/-- Host metadata of a directory. -/
def exDirMd : FsMetadata := ⟨.directory, 0, 0, 0, 0, 0, 0, 0o755, 2, 0, 0, 0⟩

/-- Host metadata of a regular file. -/
def exFileMd : FsMetadata := ⟨.regularFile, 3, 1, 0, 0, 0, 0, 0o644, 1, 0, 0, 0⟩

/-- A small host tree: directory `h` containing the regular file `h/f`. -/
def exHost : HostFS :=
  { stat := fun p =>
      if p = ["h"] then .ok exDirMd
      else if p = ["h", "f"] then .ok exFileMd
      else .error .notFound
    read_dir := fun p =>
      if p = ["h"] then .ok [.ok ⟨"f", .ok exFileMd⟩] else .error .notFound
    openf := fun _ _ => .ok () }

/-- Ambient environment over `exHost`. -/
def exEnv : Env := ⟨exHost, 7, 1000, 1000⟩

/-- A host where `h` has changed into a regular file underneath the
sandbox. -/
def exHostChanged : HostFS :=
  { stat := fun p => if p = ["h"] then .ok exFileMd else .error .notFound
    read_dir := fun _ => .error .notFound
    openf := fun _ _ => .ok () }

/-- Ambient environment over `exHostChanged`. -/
def exEnvChanged : Env := ⟨exHostChanged, 7, 1000, 1000⟩

/-- A scaffold root directory at inode 1. -/
def exRoot : DirNode := Dir.new_empty 1 none exEnv

/-- A file node mapped over `h/f` at inode 5. -/
def exFile : FileNode := File.new_mapped 5 ["h", "f"] exFileMd false

/-- The root with its name `f` bound to the file node: a destination
already occupied by a non-directory. -/
def exRootWithFile : DirNode :=
  { exRoot with state := { exRoot.state with children := [("f", ⟨5, true⟩)] } }

/-- System state holding `exRootWithFile` and the file node. -/
def exSysFile : Sys :=
  ⟨[(1, .dir exRootWithFile), (5, .file exFile)], [(["h", "f"], 5)], 6⟩

/-- A directory mapped over `h` at inode 7. -/
def exMappedDir : DirNode := Dir.new_mapped 7 ["h"] exDirMd true

/-- The mapped directory with an explicit child entry `f`. -/
def exMappedDirWithChild : DirNode :=
  { exMappedDir with state := { exMappedDir.state with children := [("f", ⟨5, true⟩)] } }

/-- System state holding the mapped directory and the file node. -/
def exSysMapped : Sys :=
  ⟨[(7, .dir exMappedDirWithChild), (5, .file exFile)], [(["h", "f"], 5)], 8⟩

/-- A scaffold child directory of the root, at inode 2. -/
def exChildDir : DirNode := Dir.new_empty 2 (some 1) exEnv

/-- The root with its name `a` bound to the scaffold child directory. -/
def exRootWithDir : DirNode :=
  { exRoot with state := { exRoot.state with children := [("a", ⟨2, true⟩)] } }

/-- System state holding `exRootWithDir` and the scaffold child. -/
def exSysDirChild : Sys := ⟨[(1, .dir exRootWithDir), (2, .dir exChildDir)], [], 3⟩

/-- A tombstoned file node: the backing path has been cleared by
`delete`. -/
def exDeletedFile : FileNode := ⟨false, ⟨none, attr_fs_to_fuse ["h", "f"] 5 exFileMd⟩⟩

/-! ## C1 -/

/-- C1: a `Dir::map` call whose first path component names an existing
child whose cached file type is not a directory fails with the
"Already mapped" conflict error and returns the state completely
unchanged, so the directory's child table, including the existing
binding, is untouched. -/
theorem C1_map_conflict_on_nondir_child
    (env : Env) (s : Sys) (selfIno : Nat) (d : DirNode)
    (name : String) (rest : List String) (up : HostPath) (w : Bool)
    (dirent : Dirent) (ft : FileType)
    (hself : alget s.nodes selfIno = some (.dir d))
    (hchild : alget d.state.children name = some dirent)
    (hft : Sys.file_type_cached s dirent.node = some ft)
    (hnd : ft ≠ FileType.directory) :
    Node.map env (name :: rest) s selfIno up w = .err alreadyMappedMsg s := by
  rw [Node.map]
  simp only [hself, hchild, hft]
  simp [hnd]

/-- C1 at a concrete input: mapping `f/g` when `f` is already bound to a
file fails with "Already mapped" and leaves the state unchanged. -/
theorem C1_map_conflict_on_nondir_child_witness :
    Node.map exEnv ["f", "g"] exSysFile 1 ["h"] false =
      .err alreadyMappedMsg exSysFile :=
  C1_map_conflict_on_nondir_child exEnv exSysFile 1 exRootWithFile "f" ["g"]
    ["h"] false ⟨5, true⟩ FileType.regularFile rfl rfl rfl (by decide)

/-! ## C10 -/

/-- C10: `Dir::map` on a single-component path whose component already
exists in the child table as a directory recurses into that child with an
empty remainder, which reaches `split_components` on an empty slice and
panics instead of returning success or a conflict error. -/
theorem C10_map_single_component_existing_dir_panics
    (env : Env) (s : Sys) (selfIno : Nat) (d : DirNode)
    (name : String) (up : HostPath) (w : Bool)
    (dirent : Dirent) (cd : DirNode)
    (hself : alget s.nodes selfIno = some (.dir d))
    (hchild : alget d.state.children name = some dirent)
    (hnode : alget s.nodes dirent.node = some (.dir cd)) :
    Node.map env [name] s selfIno up w = .panicked emptyComponentsMsg := by
  have hft : Sys.file_type_cached s dirent.node = some FileType.directory := by
    unfold Sys.file_type_cached
    rw [hnode]
    rfl
  rw [Node.map]
  simp only [hself, hchild, hft, if_pos rfl]
  rw [Node.map]
  simp only [hnode]
  simp

/-- C10 at a concrete input: remapping the single component `a`, already
bound to a scaffold directory, panics. -/
theorem C10_map_single_component_existing_dir_panics_witness :
    Node.map exEnv ["a"] exSysDirChild 1 ["h"] false =
      .panicked emptyComponentsMsg :=
  C10_map_single_component_existing_dir_panics exEnv exSysDirChild 1
    exRootWithDir "a" ["h"] false ⟨2, true⟩ exChildDir rfl rfl rfl

/-! ## C2 -/

/-- C2 counterexample: opening the tombstoned file (read-only flags, which
translate successfully) aborts the process with the `expect` panic — it
does not fail with an explicit error — and deleting it again aborts with
the `assert!` panic, refuting the claim that these calls report explicit
errors and never abort. -/
theorem C2_open_after_delete_counterexample :
    File.open exHost exDeletedFile 0 = .panicked reopenDeletedMsg ∧
    File.delete exDeletedFile = .panicked deleteTwiceMsg := by
  constructor
  · rfl
  · rfl

/-- C2 amended: `File::open` on a node whose backing path has been cleared
by `delete` — once the flag translation has succeeded — and `File::delete`
on a node with no backing path are detected contract violations: each
aborts the process with an explicit panic message, never silently ignoring
the call and never returning success; `delete` on a node that still has a
backing path succeeds and clears it. -/
theorem C2_tombstone_violations_abort
    (host : HostFS) (f : FileNode) (flags : Nat) (options : OpenOptions)
    (hdel : f.state.underlying_path = none)
    (hflags : flags_to_openoptions flags f.writable = .ok options) :
    File.open host f flags = .panicked reopenDeletedMsg ∧
    File.delete f = .panicked deleteTwiceMsg ∧
    (∀ g : FileNode, ∀ p : HostPath, g.state.underlying_path = some p →
      File.delete g =
        .ok { g with state := { g.state with underlying_path := none } }) := by
  refine ⟨?_, ?_, ?_⟩
  · rw [File.open, hflags]
    simp only [hdel]
  · rw [File.delete, hdel]
  · intro g p hg
    rw [File.delete, hg]

/-- C2 amended, at a concrete input: the tombstoned file node panics on
open (read-only flags) and on a second delete. -/
theorem C2_tombstone_violations_abort_witness :
    File.open exHost exDeletedFile 0 = .panicked reopenDeletedMsg ∧
    File.delete exDeletedFile = .panicked deleteTwiceMsg ∧
    (∀ g : FileNode, ∀ p : HostPath, g.state.underlying_path = some p →
      File.delete g =
        .ok { g with state := { g.state with underlying_path := none } }) :=
  C2_tombstone_violations_abort exHost exDeletedFile 0 ⟨true, false⟩ rfl rfl

/-! ## C8 -/

/-- C8: a `Handle::write` whose data exceeds `MAX_WRITE` bytes never fails
because of the oversized input: the data is truncated to exactly
`MAX_WRITE` bytes, only that much is written, and the reported count is
exactly `MAX_WRITE`. -/
theorem C8_write_truncates_oversized
    (contents : List Nat) (offset : Nat) (data : List Nat)
    (h : data.length > MAX_WRITE) :
    Handle.write contents offset data =
      ((write_at contents offset (data.take MAX_WRITE)).1, MAX_WRITE) := by
  rw [Handle.write]
  simp only [if_pos h]
  unfold write_at
  simp [List.length_take, Nat.min_eq_left (Nat.le_of_lt h)]

/-- C8 at a concrete input: writing `2^32` zero bytes at offset 0 reports
exactly `MAX_WRITE = 2^32 - 1` bytes written. -/
theorem C8_write_truncates_oversized_witness :
    Handle.write [] 0 (List.replicate (2 ^ 32) 0) =
      ((write_at [] 0 ((List.replicate (2 ^ 32) 0).take MAX_WRITE)).1, MAX_WRITE) :=
  C8_write_truncates_oversized [] 0 (List.replicate (2 ^ 32) 0)
    (by rw [List.length_replicate, MAX_WRITE]; norm_num)

/-- Re-inserting the binding an association list already holds leaves the
list unchanged. -/
theorem alinsert_of_alget {α β : Type} [DecidableEq α] (l : List (α × β))
    (k : α) (v : β) (h : alget l k = some v) : alinsert l k v = l := by
  induction l with
  | nil => simp [alget] at h
  | cons q rest ih =>
      obtain ⟨k₀, v₀⟩ := q
      by_cases h0 : k₀ = k
      · subst h0
        simp [alget] at h
        subst h
        simp [alinsert]
      · simp [alget, h0] at h
        simp [alinsert, h0, ih h]

/-- Storing back the node a store already holds leaves the state
unchanged. -/
theorem setNode_of_alget (s : Sys) (ino : Nat) (nd : NodeData)
    (h : alget s.nodes ino = some nd) : s.setNode ino nd = s := by
  unfold Sys.setNode
  rw [alinsert_of_alget _ _ _ h]

/-! ## C5 -/

/-- C5: `getattr` on a backed node whose host entity changed to an
incompatible type (a backed directory whose host path is no longer a
directory; a backed file whose host path became a directory or symlink)
fails with EIO and leaves the state — in particular the cached attribute
record — unchanged; `getattr` on an unbacked node (scaffold directory, or
file after delete) returns the cached attribute record with the state
unchanged, and its result does not depend on the host filesystem at
all. -/
theorem C5_getattr_refresh_discipline (env : Env) (s : Sys) (ino : Nat) :
    (∀ (d : DirNode) (path : HostPath) (md : FsMetadata),
      alget s.nodes ino = some (.dir d) →
      d.state.underlying_path = some path →
      env.host.stat path = .ok md → md.is_dir = false →
      Node.getattr env s ino = .err eioErr s) ∧
    (∀ (f : FileNode) (path : HostPath) (md : FsMetadata),
      alget s.nodes ino = some (.file f) →
      f.state.underlying_path = some path →
      env.host.stat path = .ok md → supports_type md.ftype = false →
      Node.getattr env s ino = .err eioErr s) ∧
    (∀ d : DirNode,
      alget s.nodes ino = some (.dir d) →
      d.state.underlying_path = none →
      ∀ env2 : Env, Node.getattr env2 s ino = .ok d.state.attr s) ∧
    (∀ f : FileNode,
      alget s.nodes ino = some (.file f) →
      f.state.underlying_path = none →
      ∀ env2 : Env, Node.getattr env2 s ino = .ok f.state.attr s) := by
  refine ⟨?_, ?_, ?_, ?_⟩
  · intro d path md hself hup hstat hnd
    rw [Node.getattr]
    simp only [hself, Dir.getattr, hup, hstat, hnd]
    simp
  · intro f path md hself hup hstat hnd
    rw [Node.getattr]
    simp only [hself, File.getattr_locked, hup, hstat, hnd]
    simp
  · intro d hself hnone env2
    rw [Node.getattr]
    simp only [hself, Dir.getattr, hnone]
    rw [setNode_of_alget s ino _ hself]
  · intro f hself hnone env2
    rw [Node.getattr]
    simp only [hself, File.getattr_locked, hnone]
    rw [setNode_of_alget s ino _ hself]

/-- C5 at a concrete input: the directory node backed by `h` gets EIO once
`h` has become a regular file on the host, with the state unchanged. -/
theorem C5_getattr_refresh_discipline_witness :
    Node.getattr exEnvChanged exSysMapped 7 = .err eioErr exSysMapped :=
  (C5_getattr_refresh_discipline exEnvChanged exSysMapped 7).1
    exMappedDirWithChild ["h"] exFileMd rfl rfl rfl rfl

/-- Allocating a node stores it under the allocator's next inode and bumps
the allocator. -/
theorem addNode_spec (s : Sys) (nd : NodeData) :
    (Sys.addNode s nd).2 = s.nextIno ∧
    (Sys.addNode s nd).1.nextIno = s.nextIno + 1 ∧
    alget (Sys.addNode s nd).1.nodes s.nextIno = some nd := by
  unfold Sys.addNode
  exact ⟨rfl, rfl, alget_alinsert_self _ _ _⟩

/-! ## C7 -/

/-- C7: scaffold-child creation during `map` is total — it never fails the
enclosing call.  It always allocates exactly one fresh inode and stores a
directory node there: a directory mapped over `backing_path/name` and
inheriting this directory's writability when this directory is backed and
the host probe finds a directory; an empty scaffold directory in every
other case (host entry of another type, probe error of any kind, or an
unbacked directory), with probe errors never propagated. -/
theorem C7_new_scaffold_child_cases
    (s : Sys) (selfIno : Nat) (d : DirNode) (name : String) (env : Env) :
    (Dir.new_scaffold_child s selfIno d name env).2 = s.nextIno ∧
    (Dir.new_scaffold_child s selfIno d name env).1.nextIno = s.nextIno + 1 ∧
    (∀ (path : HostPath) (md : FsMetadata),
      d.state.underlying_path = some path →
      env.host.stat (path ++ [name]) = .ok md → md.is_dir = true →
      alget (Dir.new_scaffold_child s selfIno d name env).1.nodes s.nextIno =
        some (.dir (Dir.new_mapped s.nextIno (path ++ [name]) md d.writable))) ∧
    (∀ (path : HostPath) (md : FsMetadata),
      d.state.underlying_path = some path →
      env.host.stat (path ++ [name]) = .ok md → md.is_dir = false →
      alget (Dir.new_scaffold_child s selfIno d name env).1.nodes s.nextIno =
        some (.dir (Dir.new_empty s.nextIno (some selfIno) env))) ∧
    (∀ (path : HostPath) (e : HostError),
      d.state.underlying_path = some path →
      env.host.stat (path ++ [name]) = .error e →
      alget (Dir.new_scaffold_child s selfIno d name env).1.nodes s.nextIno =
        some (.dir (Dir.new_empty s.nextIno (some selfIno) env))) ∧
    (d.state.underlying_path = none →
      alget (Dir.new_scaffold_child s selfIno d name env).1.nodes s.nextIno =
        some (.dir (Dir.new_empty s.nextIno (some selfIno) env))) := by
  rcases hup : d.state.underlying_path with _ | path
  · have he : Dir.new_scaffold_child s selfIno d name env =
        Sys.addNode s (.dir (Dir.new_empty s.nextIno (some selfIno) env)) := by
      unfold Dir.new_scaffold_child
      rw [hup]
    refine ⟨?_, ?_, ?_, ?_, ?_, ?_⟩
    · rw [he]
      exact (addNode_spec s _).1
    · rw [he]
      exact (addNode_spec s _).2.1
    · intro p md hp _ _
      exact Option.noConfusion hp
    · intro p md hp _ _
      exact Option.noConfusion hp
    · intro p e hp _
      exact Option.noConfusion hp
    · intro _
      rw [he]
      exact (addNode_spec s _).2.2
  · rcases hstat : env.host.stat (path ++ [name]) with e | md
    · have he : Dir.new_scaffold_child s selfIno d name env =
          Sys.addNode s (.dir (Dir.new_empty s.nextIno (some selfIno) env)) := by
        unfold Dir.new_scaffold_child
        rw [hup]
        simp only [hstat]
      refine ⟨?_, ?_, ?_, ?_, ?_, ?_⟩
      · rw [he]
        exact (addNode_spec s _).1
      · rw [he]
        exact (addNode_spec s _).2.1
      · intro p md hp hs _
        injection hp with hpp
        subst hpp
        rw [hstat] at hs
        exact Except.noConfusion hs
      · intro p md hp hs _
        injection hp with hpp
        subst hpp
        rw [hstat] at hs
        exact Except.noConfusion hs
      · intro p e' hp _
        rw [he]
        exact (addNode_spec s _).2.2
      · intro hn
        exact Option.noConfusion hn
    · cases hdir : md.is_dir
      · have he : Dir.new_scaffold_child s selfIno d name env =
            Sys.addNode s (.dir (Dir.new_empty s.nextIno (some selfIno) env)) := by
          unfold Dir.new_scaffold_child
          rw [hup]
          simp only [hstat, hdir]
          simp
        refine ⟨?_, ?_, ?_, ?_, ?_, ?_⟩
        · rw [he]
          exact (addNode_spec s _).1
        · rw [he]
          exact (addNode_spec s _).2.1
        · intro p md' hp hs hd
          injection hp with hpp
          subst hpp
          rw [hstat] at hs
          injection hs with hmd
          subst hmd
          rw [hdir] at hd
          exact Bool.noConfusion hd
        · intro p md' hp hs _
          rw [he]
          exact (addNode_spec s _).2.2
        · intro p e hp hs
          injection hp with hpp
          subst hpp
          rw [hstat] at hs
          exact Except.noConfusion hs
        · intro hn
          exact Option.noConfusion hn
      · have he : Dir.new_scaffold_child s selfIno d name env =
            Sys.addNode s
              (.dir (Dir.new_mapped s.nextIno (path ++ [name]) md d.writable)) := by
          unfold Dir.new_scaffold_child
          rw [hup]
          simp only [hstat, hdir]
          simp
        refine ⟨?_, ?_, ?_, ?_, ?_, ?_⟩
        · rw [he]
          exact (addNode_spec s _).1
        · rw [he]
          exact (addNode_spec s _).2.1
        · intro p md' hp hs _
          injection hp with hpp
          subst hpp
          rw [hstat] at hs
          injection hs with hmd
          subst hmd
          rw [he]
          exact (addNode_spec s _).2.2
        · intro p md' hp hs hd
          injection hp with hpp
          subst hpp
          rw [hstat] at hs
          injection hs with hmd
          subst hmd
          rw [hdir] at hd
          exact Bool.noConfusion hd
        · intro p e hp hs
          injection hp with hpp
          subst hpp
          rw [hstat] at hs
          exact Except.noConfusion hs
        · intro hn
          exact Option.noConfusion hn

/-- C7 at a concrete input: probing `h/a` (absent on the host) creates an
empty scaffold child at the fresh inode 8 and never fails. -/
theorem C7_new_scaffold_child_cases_witness :
    alget (Dir.new_scaffold_child exSysMapped 7 exMappedDirWithChild "a" exEnv).1.nodes 8 =
      some (.dir (Dir.new_empty 8 (some 7) exEnv)) :=
  (C7_new_scaffold_child_cases exSysMapped 7 exMappedDirWithChild "a" exEnv).2.2.2.2.1
    ["h"] HostError.notFound rfl rfl

/-! ## State-evolution framework shared by the remaining claims -/

/-- The state a `map` call hands back to its caller (none if the process
panicked). -/
def MapOutcome.endSys : MapOutcome → Option Sys
  | .ok s => some s
  | .err _ s => some s
  | .panicked _ => none

/-- The state a `NodeResult` operation hands back to its caller. -/
def Outcome.endSys {A : Type} : Outcome A → Option Sys
  | .ok _ s => some s
  | .err _ s => some s
  | .panicked _ => none

/-- Every directory of `s` survives into `s'` with its backing path
unchanged. -/
def dirsPreserved (s s' : Sys) : Prop :=
  ∀ j dj, alget s.nodes j = some (.dir dj) →
    ∃ dj', alget s'.nodes j = some (.dir dj') ∧
      dj'.state.underlying_path = dj.state.underlying_path

/-- Transition invariant of every node-layer operation: the identifier
allocator only moves forward, and (from any reachable state) the result is
again reachable and no directory's backing path has changed. -/
def evolves (s s' : Sys) : Prop :=
  s.nextIno ≤ s'.nextIno ∧ (s.WF → s'.WF ∧ dirsPreserved s s')

theorem dirsPreserved_refl (s : Sys) : dirsPreserved s s :=
  fun _ dj h => ⟨dj, h, rfl⟩

theorem dirsPreserved_trans {s1 s2 s3 : Sys}
    (h12 : dirsPreserved s1 s2) (h23 : dirsPreserved s2 s3) :
    dirsPreserved s1 s3 := by
  intro j dj h
  obtain ⟨dj', h', hp'⟩ := h12 j dj h
  obtain ⟨dj'', h'', hp''⟩ := h23 j dj' h'
  exact ⟨dj'', h'', hp''.trans hp'⟩

theorem evolves_refl (s : Sys) : evolves s s :=
  ⟨le_refl _, fun hwf => ⟨hwf, dirsPreserved_refl s⟩⟩

theorem evolves_trans {s1 s2 s3 : Sys}
    (h12 : evolves s1 s2) (h23 : evolves s2 s3) : evolves s1 s3 := by
  refine ⟨h12.1.trans h23.1, fun hwf => ?_⟩
  obtain ⟨hwf2, hd12⟩ := h12.2 hwf
  obtain ⟨hwf3, hd23⟩ := h23.2 hwf2
  exact ⟨hwf3, dirsPreserved_trans hd12 hd23⟩

/-- A key the store holds is below the allocator's next inode. -/
theorem alget_lt_of_WF {s : Sys} {ino : Nat} {nd : NodeData}
    (hwf : s.WF) (h : alget s.nodes ino = some nd) : ino < s.nextIno :=
  hwf (ino, nd) (alget_mem s.nodes ino nd h)

/-- Storing a node at a live inode keeps the store well-formed. -/
theorem setNode_WF {s : Sys} {ino : Nat} (nd : NodeData)
    (hwf : s.WF) (hlt : ino < s.nextIno) : (s.setNode ino nd).WF := by
  intro p hp
  rcases mem_alinsert s.nodes ino nd p hp with h | h
  · subst h
    exact hlt
  · exact hwf p h

/-- Replacing a stored directory by one with the same backing path is an
`evolves` step. -/
theorem evolves_setNode_dir {s : Sys} {ino : Nat} {d d' : DirNode}
    (hself : alget s.nodes ino = some (.dir d))
    (hpath : d'.state.underlying_path = d.state.underlying_path) :
    evolves s (s.setNode ino (.dir d')) := by
  refine ⟨le_refl _, fun hwf => ⟨setNode_WF _ hwf (alget_lt_of_WF hwf hself), ?_⟩⟩
  intro j dj hj
  by_cases hji : j = ino
  · subst hji
    rw [hself] at hj
    injection hj with hj'
    injection hj' with hj''
    subst hj''
    exact ⟨d', alget_alinsert_self _ _ _, hpath⟩
  · refine ⟨dj, ?_, rfl⟩
    unfold Sys.setNode
    rw [alget_alinsert_ne _ _ _ _ (fun h => hji h.symm)]
    exact hj

/-- Replacing a stored file or symlink node in place is an `evolves`
step. -/
theorem evolves_setNode_nondir {s : Sys} {ino : Nat} {nd nd' : NodeData}
    (hself : alget s.nodes ino = some nd)
    (hnd : ∀ d : DirNode, nd ≠ .dir d) :
    evolves s (s.setNode ino nd') := by
  refine ⟨le_refl _, fun hwf => ⟨setNode_WF _ hwf (alget_lt_of_WF hwf hself), ?_⟩⟩
  intro j dj hj
  by_cases hji : j = ino
  · subst hji
    rw [hself] at hj
    injection hj with hj'
    exact absurd hj' (hnd dj)
  · refine ⟨dj, ?_, rfl⟩
    unfold Sys.setNode
    rw [alget_alinsert_ne _ _ _ _ (fun h => hji h.symm)]
    exact hj

/-- Allocating a fresh node is an `evolves` step. -/
theorem evolves_addNode (s : Sys) (nd : NodeData) :
    evolves s (Sys.addNode s nd).1 := by
  refine ⟨Nat.le_succ _, fun hwf => ⟨?_, ?_⟩⟩
  · intro p hp
    rcases mem_alinsert s.nodes s.nextIno nd p hp with h | h
    · subst h
      exact Nat.lt_succ_self _
    · exact Nat.lt_succ_of_lt (hwf p h)
  · intro j dj hj
    refine ⟨dj, ?_, rfl⟩
    show alget (alinsert s.nodes s.nextIno nd) j = _
    rw [alget_alinsert_ne _ _ _ _ (Nat.ne_of_gt (alget_lt_of_WF hwf hj))]
    exact hj

/-- Resolving a path through the deduplication cache is an `evolves`
step. -/
theorem evolves_get_or_create (s : Sys) (path : HostPath) (md : FsMetadata)
    (w : Bool) : evolves s (Cache.get_or_create s path md w).1 := by
  unfold Cache.get_or_create
  rcases alget s.cache path with _ | ino
  · refine ⟨Nat.le_succ _, fun hwf => ⟨?_, ?_⟩⟩
    · intro p hp
      rcases mem_alinsert s.nodes s.nextIno _ p hp with h | h
      · subst h
        exact Nat.lt_succ_self _
      · exact Nat.lt_succ_of_lt (hwf p h)
    · intro j dj hj
      refine ⟨dj, ?_, rfl⟩
      show alget (alinsert s.nodes s.nextIno _) j = _
      rw [alget_alinsert_ne _ _ _ _ (Nat.ne_of_gt (alget_lt_of_WF hwf hj))]
      exact hj
  · exact evolves_refl s

/-- Scaffold-child creation always reduces to allocating one fresh
node. -/
theorem new_scaffold_child_is_addNode (s : Sys) (selfIno : Nat) (d : DirNode)
    (name : String) (env : Env) :
    ∃ nd, Dir.new_scaffold_child s selfIno d name env = Sys.addNode s nd := by
  unfold Dir.new_scaffold_child
  rcases hup : d.state.underlying_path with _ | path
  · exact ⟨_, rfl⟩
  · rcases hstat : env.host.stat (path ++ [name]) with e | md
    · exact ⟨.dir (Dir.new_empty s.nextIno (some selfIno) env), by simp only [hstat]⟩
    · cases hdir : md.is_dir
      · exact ⟨.dir (Dir.new_empty s.nextIno (some selfIno) env),
          by simp only [hstat, hdir]; simp⟩
      · exact ⟨.dir (Dir.new_mapped s.nextIno (path ++ [name]) md d.writable),
          by simp only [hstat, hdir]; simp⟩

/-- Scaffold-child creation is an `evolves` step ending at the fresh
inode. -/
theorem evolves_new_scaffold_child (s : Sys) (selfIno : Nat) (d : DirNode)
    (name : String) (env : Env) :
    evolves s (Dir.new_scaffold_child s selfIno d name env).1 := by
  obtain ⟨nd, hnd⟩ := new_scaffold_child_is_addNode s selfIno d name env
  rw [hnd]
  exact evolves_addNode s nd

/-- Updating a live directory's children table (with a node read from a
prior state that still holds it) is an `evolves` step from that prior
state composed with the steps in between. -/
theorem evolves_setDirChildren {s s1 : Sys} {ino : Nat} {d : DirNode}
    (c : List (String × Dirent))
    (hev : evolves s s1) (hself : alget s.nodes ino = some (.dir d)) :
    evolves s (s1.setDirChildren ino d c) := by
  refine ⟨hev.1, fun hwf => ?_⟩
  obtain ⟨hwf1, hd1⟩ := hev.2 hwf
  constructor
  · exact setNode_WF _ hwf1
      (Nat.lt_of_lt_of_le (alget_lt_of_WF hwf hself) hev.1)
  · intro j dj hj
    by_cases hji : j = ino
    · subst hji
      rw [hself] at hj
      injection hj with hj'
      injection hj' with hj''
      subst hj''
      exact ⟨_, alget_alinsert_self _ _ _, rfl⟩
    · obtain ⟨dj', hj', hp'⟩ := hd1 j dj hj
      refine ⟨dj', ?_, hp'⟩
      show alget (alinsert s1.nodes ino _) j = _
      rw [alget_alinsert_ne _ _ _ _ (fun h => hji h.symm)]
      exact hj'

/-- A successful `Dir::getattr` only rewrites the cached attribute:
writability, parent, backing path and children are untouched. -/
theorem Dir.getattr_ok_frame {inode : Nat} {host : HostFS} {d d' : DirNode}
    {a : FileAttr} (h : Dir.getattr inode host d = .ok (d', a)) :
    d'.writable = d.writable ∧ d'.state.parent = d.state.parent ∧
    d'.state.underlying_path = d.state.underlying_path ∧
    d'.state.children = d.state.children := by
  unfold Dir.getattr at h
  rcases hup : d.state.underlying_path with _ | path
  · simp only [hup] at h
    injection h with h1
    injection h1 with hd ha
    subst hd
    exact ⟨rfl, rfl, hup, rfl⟩
  · simp only [hup] at h
    rcases hstat : host.stat path with e | md
    · simp only [hstat] at h
      exact Except.noConfusion h
    · cases hdir : md.is_dir
      · simp only [hstat, hdir] at h
        simp at h
      · simp only [hstat, hdir] at h
        simp at h
        obtain ⟨hd, ha⟩ := h
        subst hd
        exact ⟨rfl, rfl, rfl, rfl⟩

/-- A failing `getattr` through a node reference leaves the state
untouched. -/
theorem Node.getattr_err_state {env : Env} {s : Sys} {ino : Nat}
    {e : Nat} {s' : Sys} (h : Node.getattr env s ino = .err e s') : s' = s := by
  unfold Node.getattr at h
  rcases hn : alget s.nodes ino with _ | nd
  · simp only [hn] at h
    exact Outcome.noConfusion h
  · cases nd with
    | dir d =>
        rcases hg : Dir.getattr ino env.host d with e' | pa
        · simp only [hn, hg] at h
          injection h with h1 h2
          exact h2.symm
        · obtain ⟨d', a'⟩ := pa
          simp only [hn, hg] at h
          exact Outcome.noConfusion h
    | file f =>
        rcases hg : File.getattr_locked ino env.host f.state with e' | pa
        · simp only [hn, hg] at h
          injection h with h1 h2
          exact h2.symm
        · obtain ⟨st', a'⟩ := pa
          simp only [hn, hg] at h
          exact Outcome.noConfusion h
    | symlink l =>
        rcases hg : Symlink.getattr_locked ino env.host l.state with e' | pa
        · simp only [hn, hg] at h
          injection h with h1 h2
          exact h2.symm
        · obtain ⟨st', a'⟩ := pa
          simp only [hn, hg] at h
          exact Outcome.noConfusion h

/-- A successful `getattr` through a node reference keeps every directory
in place with writability, parent, backing path and children unchanged
(only the refreshed node's cached attribute may change). -/
theorem Node.getattr_ok_dirs {env : Env} {s : Sys} {ino : Nat}
    {a : FileAttr} {s' : Sys} (h : Node.getattr env s ino = .ok a s') :
    ∀ j dj, alget s.nodes j = some (.dir dj) →
      ∃ dj', alget s'.nodes j = some (.dir dj') ∧
        dj'.writable = dj.writable ∧
        dj'.state.parent = dj.state.parent ∧
        dj'.state.underlying_path = dj.state.underlying_path ∧
        dj'.state.children = dj.state.children := by
  unfold Node.getattr at h
  rcases hn : alget s.nodes ino with _ | nd
  · simp only [hn] at h
    exact Outcome.noConfusion h
  · cases nd with
    | dir d =>
        rcases hg : Dir.getattr ino env.host d with e' | pa
        · simp only [hn, hg] at h
          exact Outcome.noConfusion h
        · obtain ⟨d', a'⟩ := pa
          simp only [hn, hg] at h
          injection h with h1 h2
          obtain ⟨hw, hpar, hup, hch⟩ := Dir.getattr_ok_frame hg
          intro j dj hj
          by_cases hji : j = ino
          · subst hji
            rw [hn] at hj
            injection hj with hj1
            injection hj1 with hj2
            subst hj2
            refine ⟨d', ?_, hw, hpar, hup, hch⟩
            rw [← h2]
            exact alget_alinsert_self _ _ _
          · refine ⟨dj, ?_, rfl, rfl, rfl, rfl⟩
            rw [← h2]
            show alget (alinsert s.nodes ino _) j = _
            rw [alget_alinsert_ne _ _ _ _ (fun hh => hji hh.symm)]
            exact hj
    | file f =>
        rcases hg : File.getattr_locked ino env.host f.state with e' | pa
        · simp only [hn, hg] at h
          exact Outcome.noConfusion h
        · obtain ⟨st', a'⟩ := pa
          simp only [hn, hg] at h
          injection h with h1 h2
          intro j dj hj
          by_cases hji : j = ino
          · subst hji
            rw [hn] at hj
            injection hj with hj1
            exact NodeData.noConfusion hj1
          · refine ⟨dj, ?_, rfl, rfl, rfl, rfl⟩
            rw [← h2]
            show alget (alinsert s.nodes ino _) j = _
            rw [alget_alinsert_ne _ _ _ _ (fun hh => hji hh.symm)]
            exact hj
    | symlink l =>
        rcases hg : Symlink.getattr_locked ino env.host l.state with e' | pa
        · simp only [hn, hg] at h
          exact Outcome.noConfusion h
        · obtain ⟨st', a'⟩ := pa
          simp only [hn, hg] at h
          injection h with h1 h2
          intro j dj hj
          by_cases hji : j = ino
          · subst hji
            rw [hn] at hj
            injection hj with hj1
            exact NodeData.noConfusion hj1
          · refine ⟨dj, ?_, rfl, rfl, rfl, rfl⟩
            rw [← h2]
            show alget (alinsert s.nodes ino _) j = _
            rw [alget_alinsert_ne _ _ _ _ (fun hh => hji hh.symm)]
            exact hj

/-- A `getattr` through a node reference is an `evolves` step. -/
theorem Node.getattr_evolves {env : Env} {s : Sys} {ino : Nat} {s' : Sys}
    (h : (Node.getattr env s ino).endSys = some s') : evolves s s' := by
  rcases hr : Node.getattr env s ino with ⟨a, s2⟩ | ⟨e, s2⟩ | m
  · rw [hr] at h
    simp only [Outcome.endSys] at h
    injection h with h'
    subst h'
    unfold Node.getattr at hr
    rcases hn : alget s.nodes ino with _ | nd
    · simp only [hn] at hr
      exact Outcome.noConfusion hr
    · cases nd with
      | dir d =>
          rcases hg : Dir.getattr ino env.host d with e' | pa
          · simp only [hn, hg] at hr
            exact Outcome.noConfusion hr
          · obtain ⟨d', a'⟩ := pa
            simp only [hn, hg] at hr
            injection hr with h1 h2
            rw [← h2]
            exact evolves_setNode_dir hn (Dir.getattr_ok_frame hg).2.2.1
      | file f =>
          rcases hg : File.getattr_locked ino env.host f.state with e' | pa
          · simp only [hn, hg] at hr
            exact Outcome.noConfusion hr
          · obtain ⟨st', a'⟩ := pa
            simp only [hn, hg] at hr
            injection hr with h1 h2
            rw [← h2]
            exact evolves_setNode_nondir hn (fun d hcc => NodeData.noConfusion hcc)
      | symlink l =>
          rcases hg : Symlink.getattr_locked ino env.host l.state with e' | pa
          · simp only [hn, hg] at hr
            exact Outcome.noConfusion hr
          · obtain ⟨st', a'⟩ := pa
            simp only [hn, hg] at hr
            injection hr with h1 h2
            rw [← h2]
            exact evolves_setNode_nondir hn (fun d hcc => NodeData.noConfusion hcc)
  · rw [hr] at h
    simp only [Outcome.endSys] at h
    injection h with h'
    subst h'
    rw [Node.getattr_err_state hr]
    exact evolves_refl s
  · rw [hr] at h
    simp only [Outcome.endSys] at h
    exact Option.noConfusion h

/-- `Dir::map` is an `evolves` step: whether it succeeds or fails, the
state handed back preserves every existing directory's backing path and
keeps the store well-formed. -/
theorem map_evolves (env : Env) (components : List String) :
    ∀ (s : Sys) (selfIno : Nat) (up : HostPath) (w : Bool) (s' : Sys),
      (Node.map env components s selfIno up w).endSys = some s' →
      evolves s s' := by
  induction components with
  | nil =>
      intro s selfIno up w s' h
      rw [Node.map] at h
      rcases hn : alget s.nodes selfIno with _ | nd
      · simp only [hn, MapOutcome.endSys] at h
        exact Option.noConfusion h
      · cases nd with
        | dir d =>
            simp only [hn, MapOutcome.endSys] at h
            exact Option.noConfusion h
        | file f =>
            simp only [hn, MapOutcome.endSys] at h
            exact Option.noConfusion h
        | symlink l =>
            simp only [hn, MapOutcome.endSys] at h
            exact Option.noConfusion h
  | cons name rest ih =>
      intro s selfIno up w s' h
      rw [Node.map] at h
      rcases hn : alget s.nodes selfIno with _ | nd
      · simp only [hn, MapOutcome.endSys] at h
        exact Option.noConfusion h
      · cases nd with
        | file f =>
            simp only [hn, MapOutcome.endSys] at h
            exact Option.noConfusion h
        | symlink l =>
            simp only [hn, MapOutcome.endSys] at h
            exact Option.noConfusion h
        | dir d =>
            simp only [hn] at h
            rcases hc : alget d.state.children name with _ | dirent
            · simp only [hc] at h
              cases hre : rest.isEmpty
              · simp only [hre] at h
                rcases hsc : Dir.new_scaffold_child s selfIno d name env
                  with ⟨s1, child⟩
                simp only [hsc] at h
                have hev2 : evolves s
                    (s1.setDirChildren selfIno d
                      (alinsert d.state.children name ⟨child, true⟩)) := by
                  have hev1 : evolves s s1 := by
                    have := evolves_new_scaffold_child s selfIno d name env
                    rw [hsc] at this
                    exact this
                  exact evolves_setDirChildren _ hev1 hn
                by_cases hft : Sys.file_type_cached
                    (s1.setDirChildren selfIno d
                      (alinsert d.state.children name ⟨child, true⟩)) child =
                    some FileType.directory
                · rw [if_pos hft] at h
                  exact evolves_trans hev2 (ih _ _ _ _ _ h)
                · rw [if_neg hft] at h
                  simp only [MapOutcome.endSys] at h
                  injection h with h'
                  subst h'
                  exact hev2
              · simp only [hre] at h
                rcases hstat : env.host.stat up with e | md
                · simp only [hstat, MapOutcome.endSys] at h
                  injection h with h'
                  subst h'
                  exact evolves_refl s
                · simp only [hstat] at h
                  rcases hgc : Cache.get_or_create s up md w with ⟨s1, child⟩
                  simp only [hgc, MapOutcome.endSys] at h
                  injection h with h'
                  subst h'
                  have hev1 : evolves s s1 := by
                    have := evolves_get_or_create s up md w
                    rw [hgc] at this
                    exact this
                  exact evolves_setDirChildren _ hev1 hn
            · simp only [hc] at h
              by_cases hft : Sys.file_type_cached s dirent.node =
                  some FileType.directory
              · rw [if_pos hft] at h
                exact ih _ _ _ _ _ h
              · rw [if_neg hft] at h
                simp only [MapOutcome.endSys] at h
                injection h with h'
                subst h'
                exact evolves_refl s

/-- `Dir::lookup` is an `evolves` step. -/
theorem lookup_evolves (env : Env) (s : Sys) (selfIno : Nat) (name : String) :
    ∀ s', (Dir.lookup env s selfIno name).endSys = some s' → evolves s s' := by
  intro s' h
  unfold Dir.lookup at h
  rcases hn : alget s.nodes selfIno with _ | nd
  · simp only [hn, Outcome.endSys] at h
    exact Option.noConfusion h
  · cases nd with
    | file f =>
        simp only [hn, Outcome.endSys] at h
        exact Option.noConfusion h
    | symlink l =>
        simp only [hn, Outcome.endSys] at h
        exact Option.noConfusion h
    | dir d =>
        simp only [hn] at h
        rcases hc : alget d.state.children name with _ | dirent
        · simp only [hc] at h
          rcases hup : d.state.underlying_path with _ | up
          · simp only [hup, Outcome.endSys] at h
            injection h with h'
            subst h'
            exact evolves_refl s
          · simp only [hup] at h
            rcases hstat : env.host.stat (up ++ [name]) with e | md
            · simp only [hstat, Outcome.endSys] at h
              injection h with h'
              subst h'
              exact evolves_refl s
            · simp only [hstat] at h
              rcases hgc : Cache.get_or_create s (up ++ [name]) md d.writable
                with ⟨s1, child⟩
              simp only [hgc, Outcome.endSys] at h
              injection h with h'
              subst h'
              have hev1 : evolves s s1 := by
                have := evolves_get_or_create s (up ++ [name]) md d.writable
                rw [hgc] at this
                exact this
              exact evolves_setDirChildren _ hev1 hn
        · simp only [hc] at h
          rcases hg : Node.getattr env s dirent.node with ⟨a, s2⟩ | ⟨e, s2⟩ | m
          · simp only [hg, Outcome.endSys] at h
            injection h with h'
            subst h'
            exact Node.getattr_evolves (by rw [hg]; rfl)
          · simp only [hg, Outcome.endSys] at h
            injection h with h'
            subst h'
            exact Node.getattr_evolves (by rw [hg]; rfl)
          · simp only [hg, Outcome.endSys] at h
            exact Option.noConfusion h

/-- The host-entry phase of `readdir` is an `evolves` step. -/
theorem readdir_entries_evolves (env : Env) (selfIno : Nat) (up : HostPath)
    (es : List (Except HostError HostDirent)) :
    ∀ (reply : List ReplyEntry) (pos : Nat) (s : Sys),
      evolves s (readdir_entries env selfIno up es reply pos s).sys := by
  induction es with
  | nil =>
      intro reply pos s
      exact evolves_refl s
  | cons head rest ih =>
      intro reply pos s
      cases head with
      | error e => exact evolves_refl s
      | ok entry =>
          rw [readdir_entries]
          rcases hn : alget s.nodes selfIno with _ | nd
          · simp only [hn]
            exact evolves_refl s
          · cases nd with
            | file f =>
                simp only [hn]
                exact evolves_refl s
            | symlink l =>
                simp only [hn]
                exact evolves_refl s
            | dir d =>
                simp only [hn]
                rcases hc : alget d.state.children entry.file_name with _ | dirent
                · simp only [hc]
                  rcases hmd : entry.metadata with e | md
                  · simp only [hmd]
                    exact evolves_refl s
                  · simp only [hmd]
                    rcases hgc : Cache.get_or_create s (up ++ [entry.file_name])
                        md d.writable with ⟨s1, child⟩
                    simp only [hgc]
                    have hev1 : evolves s s1 := by
                      have := evolves_get_or_create s (up ++ [entry.file_name])
                        md d.writable
                      rw [hgc] at this
                      exact this
                    exact evolves_trans
                      (evolves_setDirChildren _ hev1 hn) (ih _ _ _)
                · cases hx : dirent.explicit_mapping
                  · simp only [hc, hx]
                    rcases hmd : entry.metadata with e | md
                    · simp only [hmd]
                      exact evolves_refl s
                    · simp only [hmd]
                      rcases hgc : Cache.get_or_create s (up ++ [entry.file_name])
                          md d.writable with ⟨s1, child⟩
                      simp only [hgc]
                      have hev1 : evolves s s1 := by
                        have := evolves_get_or_create s (up ++ [entry.file_name])
                          md d.writable
                        rw [hgc] at this
                        exact this
                      exact evolves_trans
                        (evolves_setDirChildren _ hev1 hn) (ih _ _ _)
                  · simp only [hc, hx]
                    exact ih _ _ _

/-- `Dir::readdir` is an `evolves` step. -/
theorem readdir_evolves (env : Env) (s : Sys) (selfIno : Nat) :
    evolves s (Dir.readdir env s selfIno).sys := by
  rcases hout : Dir.readdir env s selfIno with ⟨reply, status, sys⟩
  unfold Dir.readdir at hout
  rcases hn : alget s.nodes selfIno with _ | nd
  · simp only [hn] at hout
    injection hout with h1 h2 h3
    subst h3
    exact evolves_refl s
  · cases nd with
    | file f =>
        simp only [hn] at hout
        injection hout with h1 h2 h3
        subst h3
        exact evolves_refl s
    | symlink l =>
        simp only [hn] at hout
        injection hout with h1 h2 h3
        subst h3
        exact evolves_refl s
    | dir d =>
        simp only [hn] at hout
        rcases hup : d.state.underlying_path with _ | up
        · simp only [hup] at hout
          injection hout with h1 h2 h3
          subst h3
          exact evolves_refl s
        · simp only [hup] at hout
          rcases hrd : env.host.read_dir up with e | entries
          · simp only [hrd] at hout
            injection hout with h1 h2 h3
            subst h3
            exact evolves_refl s
          · simp only [hrd] at hout
            have := readdir_entries_evolves env selfIno up entries
              (readdir_explicit s d.state.children
                [⟨selfIno, 0, FileType.directory, "."⟩,
                 ⟨d.state.parent, 1, FileType.directory, ".."⟩] 2).1
              (readdir_explicit s d.state.children
                [⟨selfIno, 0, FileType.directory, "."⟩,
                 ⟨d.state.parent, 1, FileType.directory, ".."⟩] 2).2 s
            rw [hout] at this
            exact this

/-! ## C9 -/

/-- C9: a scaffold directory is created with no host-backing path,
`writable = false` and permission bits fixed to `0o555`; and no `Dir`
operation — `map`, `getattr`, `lookup` or `readdir` — ever sets or changes
any directory's backing path (from any reachable, well-formed state), so a
scaffold directory never acquires a backing path for its lifetime. -/
theorem C9_scaffold_and_backing_path_immutable :
    (∀ (ino : Nat) (parent : Option Nat) (env : Env),
      (Dir.new_empty ino parent env).state.underlying_path = none ∧
      (Dir.new_empty ino parent env).writable = false ∧
      (Dir.new_empty ino parent env).state.attr.perm = 0o555) ∧
    (∀ (env : Env) (components : List String) (s : Sys) (selfIno : Nat)
        (up : HostPath) (w : Bool) (s' : Sys),
      (Node.map env components s selfIno up w).endSys = some s' → s.WF →
      dirsPreserved s s') ∧
    (∀ (env : Env) (s : Sys) (ino : Nat) (s' : Sys),
      (Node.getattr env s ino).endSys = some s' → s.WF →
      dirsPreserved s s') ∧
    (∀ (env : Env) (s : Sys) (selfIno : Nat) (name : String) (s' : Sys),
      (Dir.lookup env s selfIno name).endSys = some s' → s.WF →
      dirsPreserved s s') ∧
    (∀ (env : Env) (s : Sys) (selfIno : Nat), s.WF →
      dirsPreserved s (Dir.readdir env s selfIno).sys) := by
  refine ⟨?_, ?_, ?_, ?_, ?_⟩
  · intro ino parent env
    exact ⟨rfl, rfl, rfl⟩
  · intro env components s selfIno up w s' h hwf
    exact ((map_evolves env components s selfIno up w s' h).2 hwf).2
  · intro env s ino s' h hwf
    exact ((Node.getattr_evolves h).2 hwf).2
  · intro env s selfIno name s' h hwf
    exact ((lookup_evolves env s selfIno name s' h).2 hwf).2
  · intro env s selfIno hwf
    exact ((readdir_evolves env s selfIno).2 hwf).2

/-- C9 at a concrete input: after the failing `map` call on `exSysFile`
(whose returned state is `exSysFile` itself) the root directory still has
its original (absent) backing path. -/
theorem C9_scaffold_and_backing_path_immutable_witness :
    ∃ dj', alget exSysFile.nodes 1 = some (.dir dj') ∧
      dj'.state.underlying_path = exRootWithFile.state.underlying_path :=
  C9_scaffold_and_backing_path_immutable.2.1 exEnv ["f", "g"] exSysFile 1
    ["h"] false exSysFile rfl (by decide) 1 exRootWithFile rfl

/-- The deduplication cache maps the resolved path to the returned node. -/
theorem get_or_create_cache (s : Sys) (path : HostPath) (md : FsMetadata)
    (w : Bool) :
    alget (Cache.get_or_create s path md w).1.cache path =
      some (Cache.get_or_create s path md w).2 := by
  unfold Cache.get_or_create
  rcases hc : alget s.cache path with _ | ino
  · simp only [hc]
    exact alget_alinsert_self _ _ _
  · simp only [hc]

/-! ## C6 -/

/-- C6: `Dir::lookup` resolution discipline.  A known child is returned as
that same node with the attribute produced by the child's own `getattr`,
and the directory's child table is unchanged (nothing is inserted; a
failing child `getattr` leaves the whole state unchanged).  For an absent
name: an unbacked directory fails with ENOENT and the state is unchanged;
a backed directory propagates a stat failure as the corresponding host
errno with the state unchanged; and a successful stat registers the node
resolved through the deduplication cache as an implicit entry
(`explicit_mapping = false`) and returns it. -/
theorem C6_lookup_resolution (env : Env) (s : Sys) (selfIno : Nat)
    (name : String) (d : DirNode)
    (hself : alget s.nodes selfIno = some (.dir d)) :
    (∀ dirent, alget d.state.children name = some dirent →
      (∀ a s2, Node.getattr env s dirent.node = .ok a s2 →
        Dir.lookup env s selfIno name = .ok (dirent.node, a) s2 ∧
        ∃ d2, alget s2.nodes selfIno = some (.dir d2) ∧
          d2.state.children = d.state.children) ∧
      (∀ e s2, Node.getattr env s dirent.node = .err e s2 →
        Dir.lookup env s selfIno name = .err e s2 ∧ s2 = s)) ∧
    (alget d.state.children name = none → d.state.underlying_path = none →
      Dir.lookup env s selfIno name = .err enoentErr s) ∧
    (∀ (up : HostPath) (e : HostError), alget d.state.children name = none →
      d.state.underlying_path = some up →
      env.host.stat (up ++ [name]) = .error e →
      Dir.lookup env s selfIno name = .err e.errno s) ∧
    (∀ (up : HostPath) (md : FsMetadata), alget d.state.children name = none →
      d.state.underlying_path = some up →
      env.host.stat (up ++ [name]) = .ok md →
      ∃ child a s2, Dir.lookup env s selfIno name = .ok (child, a) s2 ∧
        alget s2.cache (up ++ [name]) = some child ∧
        ∃ d2, alget s2.nodes selfIno = some (.dir d2) ∧
          alget d2.state.children name = some ⟨child, false⟩) := by
  refine ⟨?_, ?_, ?_, ?_⟩
  · intro dirent hc
    constructor
    · intro a s2 hg
      constructor
      · unfold Dir.lookup
        simp only [hself, hc, hg]
      · obtain ⟨d2, hd2, _, _, _, hch⟩ := Node.getattr_ok_dirs hg selfIno d hself
        exact ⟨d2, hd2, hch⟩
    · intro e s2 hg
      constructor
      · unfold Dir.lookup
        simp only [hself, hc, hg]
      · exact Node.getattr_err_state hg
  · intro hc hup
    unfold Dir.lookup
    simp only [hself, hc, hup]
  · intro up e hc hup hstat
    unfold Dir.lookup
    simp only [hself, hc, hup, hstat]
  · intro up md hc hup hstat
    rcases hgc : Cache.get_or_create s (up ++ [name]) md d.writable
      with ⟨s1, child⟩
    refine ⟨child, attr_fs_to_fuse (up ++ [name]) child md,
      s1.setDirChildren selfIno d (alinsert d.state.children name ⟨child, false⟩),
      ?_, ?_, ?_⟩
    · unfold Dir.lookup
      simp only [hself, hc, hup, hstat, hgc]
    · have := get_or_create_cache s (up ++ [name]) md d.writable
      rw [hgc] at this
      exact this
    · refine ⟨{ d with state :=
        { d.state with children := alinsert d.state.children name ⟨child, false⟩ } },
        ?_, ?_⟩
      · exact alget_alinsert_self _ _ _
      · exact alget_alinsert_self _ _ _

/-- C6 at a concrete input: looking up an unknown name in the unbacked
root fails with ENOENT and leaves the state unchanged. -/
theorem C6_lookup_resolution_witness :
    Dir.lookup exEnv exSysDirChild 1 "zzz" = .err enoentErr exSysDirChild :=
  (C6_lookup_resolution exEnv exSysDirChild 1 "zzz" exRootWithDir rfl).2.1 rfl rfl

/-! ## Listing-position lemmas for `readdir` -/

/-- Every entry of the reply sits at the listing position equal to its
index: positions are unique, strictly increasing and gap-free. -/
def posIdx (l : List ReplyEntry) : Prop :=
  ∀ k, (h : k < l.length) → (l.get ⟨k, h⟩).pos = k

/-- Appending one entry whose position is the current length preserves
`posIdx`. -/
theorem posIdx_append_one {l : List ReplyEntry} {e : ReplyEntry}
    (hl : posIdx l) (he : e.pos = l.length) : posIdx (l ++ [e]) := by
  intro k h
  have hlen : k < l.length + 1 := by
    simpa using h
  by_cases hk : k < l.length
  · rw [List.get_eq_getElem, List.getElem_append_left hk]
    exact hl k hk
  · have hkl : k = l.length := by omega
    subst hkl
    rw [List.get_eq_getElem, List.getElem_append_right (le_refl _)]
    simpa using he

/-- Phase 2 of `readdir` preserves the position-equals-index invariant and
keeps the running position equal to the reply length. -/
theorem readdir_explicit_posIdx (s : Sys) (cs : List (String × Dirent)) :
    ∀ (reply : List ReplyEntry) (pos : Nat), posIdx reply → pos = reply.length →
      posIdx (readdir_explicit s cs reply pos).1 ∧
      (readdir_explicit s cs reply pos).2 =
        ((readdir_explicit s cs reply pos).1).length := by
  induction cs with
  | nil =>
      intro reply pos hp hl
      exact ⟨hp, hl⟩
  | cons p rest ih =>
      intro reply pos hp hl
      obtain ⟨n, de⟩ := p
      cases hx : de.explicit_mapping
      · rw [readdir_explicit]
        simp only [hx]
        exact ih reply pos hp hl
      · rw [readdir_explicit]
        simp only [hx]
        refine ih _ _ (posIdx_append_one hp ?_) ?_
        · simpa using hl
        · simp [hl]

/-- Phase 3 of `readdir` preserves the position-equals-index invariant. -/
theorem readdir_entries_posIdx (env : Env) (selfIno : Nat) (up : HostPath)
    (es : List (Except HostError HostDirent)) :
    ∀ (reply : List ReplyEntry) (pos : Nat) (s : Sys),
      posIdx reply → pos = reply.length →
      posIdx (readdir_entries env selfIno up es reply pos s).reply := by
  induction es with
  | nil =>
      intro reply pos s hp _
      exact hp
  | cons head rest ih =>
      intro reply pos s hp hl
      cases head with
      | error e => exact hp
      | ok entry =>
          rw [readdir_entries]
          rcases hn : alget s.nodes selfIno with _ | nd
          · exact hp
          · cases nd with
            | file f => exact hp
            | symlink l => exact hp
            | dir d =>
                simp only [hn]
                rcases hc : alget d.state.children entry.file_name with _ | dirent
                · simp only [hc]
                  rcases hmd : entry.metadata with e | md
                  · exact hp
                  · simp only [hmd]
                    rcases hgc : Cache.get_or_create s (up ++ [entry.file_name])
                        md d.writable with ⟨s1, child⟩
                    simp only [hgc]
                    refine ih _ _ _ (posIdx_append_one hp ?_) ?_
                    · simpa using hl
                    · simp [hl]
                · cases hx : dirent.explicit_mapping
                  · simp only [hc, hx]
                    rcases hmd : entry.metadata with e | md
                    · exact hp
                    · simp only [hmd]
                      rcases hgc : Cache.get_or_create s (up ++ [entry.file_name])
                          md d.writable with ⟨s1, child⟩
                      simp only [hgc]
                      refine ih _ _ _ (posIdx_append_one hp ?_) ?_
                      · simpa using hl
                      · simp [hl]
                  · simp only [hc, hx]
                    exact ih _ _ _ hp hl

/-- Phase 2 only appends to the reply. -/
theorem readdir_explicit_extends (s : Sys) (cs : List (String × Dirent)) :
    ∀ (reply : List ReplyEntry) (pos : Nat),
      ∃ t, (readdir_explicit s cs reply pos).1 = reply ++ t := by
  induction cs with
  | nil =>
      intro reply pos
      exact ⟨[], by simp [readdir_explicit]⟩
  | cons p rest ih =>
      intro reply pos
      obtain ⟨n, de⟩ := p
      cases hx : de.explicit_mapping
      · rw [readdir_explicit]
        simp only [hx]
        exact ih reply pos
      · rw [readdir_explicit]
        simp only [hx, if_pos trivial]
        obtain ⟨t, ht⟩ := ih (reply ++
          [⟨de.node, pos, (Sys.file_type_cached s de.node).getD FileType.regularFile, n⟩])
          (pos + 1)
        exact ⟨_, by rw [ht, List.append_assoc]⟩

/-- Phase 3 only appends to the reply. -/
theorem readdir_entries_extends (env : Env) (selfIno : Nat) (up : HostPath)
    (es : List (Except HostError HostDirent)) :
    ∀ (reply : List ReplyEntry) (pos : Nat) (s : Sys),
      ∃ t, (readdir_entries env selfIno up es reply pos s).reply = reply ++ t := by
  induction es with
  | nil =>
      intro reply pos s
      exact ⟨[], by simp [readdir_entries]⟩
  | cons head rest ih =>
      intro reply pos s
      cases head with
      | error e => exact ⟨[], by simp [readdir_entries]⟩
      | ok entry =>
          rw [readdir_entries]
          rcases hn : alget s.nodes selfIno with _ | nd
          · exact ⟨[], by simp⟩
          · cases nd with
            | file f => exact ⟨[], by simp⟩
            | symlink l => exact ⟨[], by simp⟩
            | dir d =>
                simp only [hn]
                rcases hc : alget d.state.children entry.file_name with _ | dirent
                · simp only [hc]
                  rcases hmd : entry.metadata with e | md
                  · exact ⟨[], by simp⟩
                  · simp only [hmd]
                    rcases hgc : Cache.get_or_create s (up ++ [entry.file_name])
                        md d.writable with ⟨s1, child⟩
                    simp only [hgc]
                    obtain ⟨t, ht⟩ := ih (reply ++
                      [⟨child, pos, filetype_fs_to_fuse (up ++ [entry.file_name]) md.ftype,
                        entry.file_name⟩]) (pos + 1)
                      (s1.setDirChildren selfIno d
                        (alinsert d.state.children entry.file_name ⟨child, false⟩))
                    exact ⟨_, by rw [if_neg (by simp), ht, List.append_assoc]⟩
                · cases hx : dirent.explicit_mapping
                  · simp only [hc, hx]
                    rcases hmd : entry.metadata with e | md
                    · exact ⟨[], by simp⟩
                    · simp only [hmd]
                      rcases hgc : Cache.get_or_create s (up ++ [entry.file_name])
                          md d.writable with ⟨s1, child⟩
                      simp only [hgc]
                      obtain ⟨t, ht⟩ := ih (reply ++
                        [⟨child, pos, filetype_fs_to_fuse (up ++ [entry.file_name]) md.ftype,
                          entry.file_name⟩]) (pos + 1)
                        (s1.setDirChildren selfIno d
                          (alinsert d.state.children entry.file_name ⟨child, false⟩))
                      exact ⟨_, by rw [if_neg (by simp), ht, List.append_assoc]⟩
                  · simp only [hc, hx]
                    exact ih reply pos s

/-- Every entry phase 2 emits is either carried over from the input reply
or describes an explicit child from the table. -/
theorem readdir_explicit_mem (s : Sys) (cs : List (String × Dirent)) :
    ∀ (reply : List ReplyEntry) (pos : Nat) (e : ReplyEntry),
      e ∈ (readdir_explicit s cs reply pos).1 →
      e ∈ reply ∨ ∃ p ∈ cs, p.2.explicit_mapping = true ∧
        e.name = p.1 ∧ e.ino = p.2.node := by
  induction cs with
  | nil =>
      intro reply pos e he
      exact Or.inl he
  | cons p rest ih =>
      intro reply pos e he
      obtain ⟨n, de⟩ := p
      cases hx : de.explicit_mapping
      · rw [readdir_explicit] at he
        simp only [hx] at he
        rw [if_neg (by simp)] at he
        rcases ih _ _ _ he with h | ⟨q, hq, hqx, hqn, hqi⟩
        · exact Or.inl h
        · exact Or.inr ⟨q, List.mem_cons_of_mem _ hq, hqx, hqn, hqi⟩
      · rw [readdir_explicit] at he
        simp only [hx, if_pos trivial] at he
        rcases ih _ _ _ he with h | ⟨q, hq, hqx, hqn, hqi⟩
        · rcases List.mem_append.mp h with h' | h'
          · exact Or.inl h'
          · rcases List.mem_singleton.mp h' with rfl
            exact Or.inr ⟨(n, de), List.mem_cons_self _ _, hx, rfl, rfl⟩
        · exact Or.inr ⟨q, List.mem_cons_of_mem _ hq, hqx, hqn, hqi⟩

/-! ## C4 -/

/-- C4: `readdir` emits `.` at position 0 with this directory's inode and
`..` at position 1 with the parent inode; every entry of the reply sits at
the listing position equal to its index (so positions are unique, strictly
increasing from 2 after `.`/`..`, with no gaps); and on a directory with
no host-backing path nothing beyond the explicit-children phase is
emitted. -/
theorem C4_readdir_positions (env : Env) (s : Sys) (selfIno : Nat) (d : DirNode)
    (hself : alget s.nodes selfIno = some (.dir d)) :
    (Dir.readdir env s selfIno).reply.head? =
      some ⟨selfIno, 0, FileType.directory, "."⟩ ∧
    ((Dir.readdir env s selfIno).reply.drop 1).head? =
      some ⟨d.state.parent, 1, FileType.directory, ".."⟩ ∧
    posIdx (Dir.readdir env s selfIno).reply ∧
    (d.state.underlying_path = none →
      ∀ e ∈ (Dir.readdir env s selfIno).reply,
        e = ⟨selfIno, 0, FileType.directory, "."⟩ ∨
        e = ⟨d.state.parent, 1, FileType.directory, ".."⟩ ∨
        ∃ p ∈ d.state.children, p.2.explicit_mapping = true ∧
          e.name = p.1 ∧ e.ino = p.2.node) := by
  have hp0 : posIdx [(⟨selfIno, 0, FileType.directory, "."⟩ : ReplyEntry),
      ⟨d.state.parent, 1, FileType.directory, ".."⟩] := by
    intro k h
    simp only [List.length_cons, List.length_nil] at h
    interval_cases k
    · rfl
    · rfl
  rcases hout : Dir.readdir env s selfIno with ⟨reply, status, sys⟩
  unfold Dir.readdir at hout
  simp only [hself] at hout
  rcases hup : d.state.underlying_path with _ | up
  · simp only [hup] at hout
    injection hout with h1 h2 h3
    obtain ⟨t, ht⟩ := readdir_explicit_extends s d.state.children
      [⟨selfIno, 0, FileType.directory, "."⟩,
       ⟨d.state.parent, 1, FileType.directory, ".."⟩] 2
    refine ⟨?_, ?_, ?_, ?_⟩
    · rw [← h1, ht]
      rfl
    · rw [← h1, ht]
      rfl
    · rw [← h1]
      exact (readdir_explicit_posIdx s d.state.children _ _ hp0 rfl).1
    · intro _ e he
      rw [← h1] at he
      rcases readdir_explicit_mem s d.state.children _ _ _ he
        with h | ⟨p, hp, hpx, hpn, hpi⟩
      · rcases List.mem_cons.mp h with h' | h'
        · exact Or.inl h'
        · exact Or.inr (Or.inl (List.mem_singleton.mp h'))
      · exact Or.inr (Or.inr ⟨p, hp, hpx, hpn, hpi⟩)
  · simp only [hup] at hout
    rcases hrd : env.host.read_dir up with e | entries
    · simp only [hrd] at hout
      injection hout with h1 h2 h3
      obtain ⟨t, ht⟩ := readdir_explicit_extends s d.state.children
        [⟨selfIno, 0, FileType.directory, "."⟩,
         ⟨d.state.parent, 1, FileType.directory, ".."⟩] 2
      refine ⟨?_, ?_, ?_, ?_⟩
      · rw [← h1, ht]
        rfl
      · rw [← h1, ht]
        rfl
      · rw [← h1]
        exact (readdir_explicit_posIdx s d.state.children _ _ hp0 rfl).1
      · intro hcc
        exact Option.noConfusion hcc
    · simp only [hrd] at hout
      obtain ⟨t, ht⟩ := readdir_explicit_extends s d.state.children
        [⟨selfIno, 0, FileType.directory, "."⟩,
         ⟨d.state.parent, 1, FileType.directory, ".."⟩] 2
      obtain ⟨t2, ht2⟩ := readdir_entries_extends env selfIno up entries
        (readdir_explicit s d.state.children
          [⟨selfIno, 0, FileType.directory, "."⟩,
           ⟨d.state.parent, 1, FileType.directory, ".."⟩] 2).1
        (readdir_explicit s d.state.children
          [⟨selfIno, 0, FileType.directory, "."⟩,
           ⟨d.state.parent, 1, FileType.directory, ".."⟩] 2).2 s
      have hreply : reply = (readdir_entries env selfIno up entries
          (readdir_explicit s d.state.children
            [⟨selfIno, 0, FileType.directory, "."⟩,
             ⟨d.state.parent, 1, FileType.directory, ".."⟩] 2).1
          (readdir_explicit s d.state.children
            [⟨selfIno, 0, FileType.directory, "."⟩,
             ⟨d.state.parent, 1, FileType.directory, ".."⟩] 2).2 s).reply := by
        rw [hout]
      refine ⟨?_, ?_, ?_, ?_⟩
      · rw [hreply, ht2, ht, List.append_assoc]
        rfl
      · rw [hreply, ht2, ht, List.append_assoc]
        rfl
      · rw [hreply]
        exact readdir_entries_posIdx env selfIno up entries _ _ s
          (readdir_explicit_posIdx s d.state.children _ _ hp0 rfl).1
          (readdir_explicit_posIdx s d.state.children _ _ hp0 rfl).2
      · intro hcc
        exact Option.noConfusion hcc

/-- C4 at a concrete input: the listing of the mapped directory starts
with `.` at position 0 bearing its own inode. -/
theorem C4_readdir_positions_witness :
    (Dir.readdir exEnv exSysMapped 7).reply.head? =
      some ⟨7, 0, FileType.directory, "."⟩ :=
  (C4_readdir_positions exEnv exSysMapped 7 exMappedDirWithChild rfl).1

/-- With duplicate-free keys, membership determines the lookup (the
`HashMap` of the source always has duplicate-free keys). -/
theorem alget_of_mem_nodup {α β : Type} [DecidableEq α] (l : List (α × β))
    (hk : (l.map Prod.fst).Nodup) (p : α × β) (hp : p ∈ l) :
    alget l p.1 = some p.2 := by
  induction l with
  | nil => cases hp
  | cons q rest ih =>
      obtain ⟨k0, v0⟩ := q
      rcases List.mem_cons.mp hp with h | h
      · subst h
        simp [alget]
      · have hq : k0 ≠ p.1 := by
          intro hcc
          have hmem : p.1 ∈ rest.map Prod.fst := List.mem_map_of_mem Prod.fst h
          rw [← hcc] at hmem
          exact (List.nodup_cons.mp hk).1 hmem
        rw [alget_cons, if_neg hq]
        exact ih (List.nodup_cons.mp hk).2 h

/-- The names of the host entries a `read_dir` listing yields. -/
def entryNames (es : List (Except HostError HostDirent)) : List String :=
  es.filterMap fun x =>
    match x with
    | .ok e => some e.file_name
    | .error _ => none

/-- The names phase 2 emits: the input reply's names followed by the names
of the explicit children, in table order. -/
theorem readdir_explicit_names (s : Sys) (cs : List (String × Dirent)) :
    ∀ (reply : List ReplyEntry) (pos : Nat),
      ((readdir_explicit s cs reply pos).1).map (fun e => e.name) =
        reply.map (fun e => e.name) ++
          (cs.filter fun p => p.2.explicit_mapping).map Prod.fst := by
  induction cs with
  | nil =>
      intro reply pos
      simp [readdir_explicit]
  | cons p rest ih =>
      intro reply pos
      obtain ⟨n, de⟩ := p
      cases hx : de.explicit_mapping
      · rw [readdir_explicit]
        simp only [hx]
        rw [if_neg (by simp)]
        rw [ih]
        simp [hx]
      · rw [readdir_explicit]
        simp only [hx, if_pos trivial]
        rw [ih]
        simp [hx]

/-- Phase 3 keeps the emitted names duplicate-free: an invariant ties the
remaining host names to the current children table (still explicit there,
hence skipped) or to names not yet emitted. -/
theorem readdir_entries_names_nodup (env : Env) (selfIno : Nat) (up : HostPath)
    (es : List (Except HostError HostDirent)) :
    ∀ (reply : List ReplyEntry) (pos : Nat) (s : Sys) (d : DirNode),
      alget s.nodes selfIno = some (.dir d) →
      (reply.map (fun e => e.name)).Nodup →
      (entryNames es).Nodup →
      (∀ n ∈ entryNames es,
        (∃ de, alget d.state.children n = some de ∧ de.explicit_mapping = true) ∨
        n ∉ reply.map (fun e => e.name)) →
      ((readdir_entries env selfIno up es reply pos s).reply.map
        (fun e => e.name)).Nodup := by
  induction es with
  | nil =>
      intro reply pos s d _ hrep _ _
      exact hrep
  | cons head rest ih =>
      intro reply pos s d hself hrep hes hinv
      cases head with
      | error e => exact hrep
      | ok entry =>
          rw [readdir_entries]
          simp only [hself]
          have hesr : entryNames (.ok entry :: rest) =
              entry.file_name :: entryNames rest := rfl
          rw [hesr] at hes hinv
          rcases hc : alget d.state.children entry.file_name with _ | dirent
          · simp only [hc]
            rcases hmd : entry.metadata with e | md
            · simp only [hmd]
              rw [if_neg (by simp)]
              exact hrep
            · simp only [hmd]
              rcases hgc : Cache.get_or_create s (up ++ [entry.file_name])
                  md d.writable with ⟨s1, child⟩
              simp only [hgc]
              rw [if_neg (by simp)]
              have hname : entry.file_name ∉ reply.map (fun e => e.name) := by
                rcases hinv entry.file_name (List.mem_cons_self _ _)
                  with ⟨de, hde, _⟩ | h
                · rw [hc] at hde
                  exact Option.noConfusion hde
                · exact h
              refine ih _ _ _
                ({ d with state := { d.state with children := alinsert d.state.children entry.file_name ⟨child, false⟩ } })
                (alget_alinsert_self _ _ _) ?_ (List.nodup_cons.mp hes).2 ?_
              · rw [List.map_append]
                refine List.Nodup.append hrep (List.nodup_singleton _) ?_
                intro a ha hb
                simp at hb
                subst hb
                exact hname ha
              · intro n hn
                have hne : n ≠ entry.file_name := by
                  intro hcc
                  apply (List.nodup_cons.mp hes).1
                  rw [← hcc]
                  exact hn
                rcases hinv n (List.mem_cons_of_mem _ hn) with ⟨de, hde, hdex⟩ | h
                · left
                  refine ⟨de, ?_, hdex⟩
                  show alget (alinsert d.state.children entry.file_name
                    ⟨child, false⟩) n = some de
                  rw [alget_alinsert_ne _ _ _ _ (fun hcc => hne hcc.symm)]
                  exact hde
                · right
                  rw [List.map_append]
                  intro hcc
                  rcases List.mem_append.mp hcc with h' | h'
                  · exact h h'
                  · simp at h'
                    exact hne h'
          · cases hx : dirent.explicit_mapping
            · simp only [hc, hx]
              rcases hmd : entry.metadata with e | md
              · simp only [hmd]
                rw [if_neg (by simp)]
                exact hrep
              · simp only [hmd]
                rcases hgc : Cache.get_or_create s (up ++ [entry.file_name])
                    md d.writable with ⟨s1, child⟩
                simp only [hgc]
                rw [if_neg (by simp)]
                have hname : entry.file_name ∉ reply.map (fun e => e.name) := by
                  rcases hinv entry.file_name (List.mem_cons_self _ _)
                    with ⟨de, hde, hdex⟩ | h
                  · rw [hc] at hde
                    injection hde with hde'
                    subst hde'
                    rw [hx] at hdex
                    exact Bool.noConfusion hdex
                  · exact h
                refine ih _ _ _
                  ({ d with state := { d.state with children := alinsert d.state.children entry.file_name ⟨child, false⟩ } })
                  (alget_alinsert_self _ _ _) ?_ (List.nodup_cons.mp hes).2 ?_
                · rw [List.map_append]
                  refine List.Nodup.append hrep (List.nodup_singleton _) ?_
                  intro a ha hb
                  simp at hb
                  subst hb
                  exact hname ha
                · intro n hn
                  have hne : n ≠ entry.file_name := by
                    intro hcc
                    apply (List.nodup_cons.mp hes).1
                    rw [← hcc]
                    exact hn
                  rcases hinv n (List.mem_cons_of_mem _ hn)
                    with ⟨de, hde, hdex⟩ | h
                  · left
                    refine ⟨de, ?_, hdex⟩
                    show alget (alinsert d.state.children entry.file_name
                      ⟨child, false⟩) n = some de
                    rw [alget_alinsert_ne _ _ _ _ (fun hcc => hne hcc.symm)]
                    exact hde
                  · right
                    rw [List.map_append]
                    intro hcc
                    rcases List.mem_append.mp hcc with h' | h'
                    · exact h h'
                    · simp at h'
                      exact hne h'
            · simp only [hc, hx]
              rw [if_pos trivial]
              exact ih _ _ _ d hself hrep (List.nodup_cons.mp hes).2
                (fun n hn => hinv n (List.mem_cons_of_mem _ hn))

/-! ## C3 -/

/-- C3: in any `readdir` whose directory state and host listing are
realistic (duplicate-free child names and host names, `.`/`..` never
appearing as child or host entry names — all guaranteed by `HashMap` and
by the host's `read_dir`), no name is ever emitted twice, and the name of
every explicit mapping entry is emitted (in the explicit-children phase);
hence an explicit entry and a same-named host entry never both appear —
the same-named host entry is skipped — regardless of the prior call
history that produced the state. -/
theorem C3_readdir_explicit_always_wins (env : Env) (s : Sys) (selfIno : Nat)
    (d : DirNode)
    (hself : alget s.nodes selfIno = some (.dir d))
    (hkeys : (d.state.children.map Prod.fst).Nodup)
    (hdot : "." ∉ d.state.children.map Prod.fst)
    (hdotdot : ".." ∉ d.state.children.map Prod.fst)
    (hhost : ∀ (up : HostPath) (entries : List (Except HostError HostDirent)),
      d.state.underlying_path = some up → env.host.read_dir up = .ok entries →
      (entryNames entries).Nodup ∧ "." ∉ entryNames entries ∧
        ".." ∉ entryNames entries) :
    ((Dir.readdir env s selfIno).reply.map (fun e => e.name)).Nodup ∧
    (∀ p ∈ d.state.children, p.2.explicit_mapping = true →
      p.1 ∈ (Dir.readdir env s selfIno).reply.map (fun e => e.name)) := by
  have hnames1 : ((readdir_explicit s d.state.children
      [⟨selfIno, 0, FileType.directory, "."⟩,
       ⟨d.state.parent, 1, FileType.directory, ".."⟩] 2).1).map (fun e => e.name) =
      [".", ".."] ++
        (d.state.children.filter fun p => p.2.explicit_mapping).map Prod.fst :=
    readdir_explicit_names s d.state.children _ 2
  have hsub : ((d.state.children.filter fun p => p.2.explicit_mapping).map
      Prod.fst).Sublist (d.state.children.map Prod.fst) :=
    (List.filter_sublist _).map _
  have hnodup1 : (((readdir_explicit s d.state.children
      [⟨selfIno, 0, FileType.directory, "."⟩,
       ⟨d.state.parent, 1, FileType.directory, ".."⟩] 2).1).map
        (fun e => e.name)).Nodup := by
    rw [hnames1]
    refine List.Nodup.append (by decide) (hkeys.sublist hsub) ?_
    intro a ha hb
    rcases List.mem_cons.mp ha with h' | h'
    · subst h'
      exact hdot (hsub.subset hb)
    · rcases List.mem_singleton.mp h' with rfl
      exact hdotdot (hsub.subset hb)
  have hmem1 : ∀ p ∈ d.state.children, p.2.explicit_mapping = true →
      p.1 ∈ ((readdir_explicit s d.state.children
        [⟨selfIno, 0, FileType.directory, "."⟩,
         ⟨d.state.parent, 1, FileType.directory, ".."⟩] 2).1).map
          (fun e => e.name) := by
    intro p hp hpx
    rw [hnames1]
    refine List.mem_append.mpr (Or.inr ?_)
    exact List.mem_map_of_mem Prod.fst (List.mem_filter.mpr ⟨hp, hpx⟩)
  rcases hout : Dir.readdir env s selfIno with ⟨reply, status, sys⟩
  unfold Dir.readdir at hout
  simp only [hself] at hout
  rcases hup : d.state.underlying_path with _ | up
  · simp only [hup] at hout
    injection hout with h1 h2 h3
    constructor
    · rw [← h1]
      exact hnodup1
    · intro p hp hpx
      rw [← h1]
      exact hmem1 p hp hpx
  · simp only [hup] at hout
    rcases hrd : env.host.read_dir up with e | entries
    · simp only [hrd] at hout
      injection hout with h1 h2 h3
      constructor
      · rw [← h1]
        exact hnodup1
      · intro p hp hpx
        rw [← h1]
        exact hmem1 p hp hpx
    · simp only [hrd] at hout
      obtain ⟨hes, hedot, hedotdot⟩ := hhost up entries hup hrd
      have hreply : reply = (readdir_entries env selfIno up entries
          (readdir_explicit s d.state.children
            [⟨selfIno, 0, FileType.directory, "."⟩,
             ⟨d.state.parent, 1, FileType.directory, ".."⟩] 2).1
          (readdir_explicit s d.state.children
            [⟨selfIno, 0, FileType.directory, "."⟩,
             ⟨d.state.parent, 1, FileType.directory, ".."⟩] 2).2 s).reply := by
        rw [hout]
      constructor
      · rw [hreply]
        refine readdir_entries_names_nodup env selfIno up entries _ _ s d hself
          hnodup1 hes ?_
        intro n hn
        by_cases hex : ∃ de, alget d.state.children n = some de ∧
            de.explicit_mapping = true
        · exact Or.inl hex
        · refine Or.inr ?_
          rw [hnames1]
          intro hmem
          rcases List.mem_append.mp hmem with h' | h'
          · rcases List.mem_cons.mp h' with h'' | h''
            · subst h''
              exact hedot hn
            · rcases List.mem_singleton.mp h'' with rfl
              exact hedotdot hn
          · obtain ⟨p, hpf, hpn⟩ := List.mem_map.mp h'
            obtain ⟨hp, hpx⟩ := List.mem_filter.mp hpf
            apply hex
            refine ⟨p.2, ?_, hpx⟩
            rw [← hpn]
            exact alget_of_mem_nodup d.state.children hkeys p hp
      · intro p hp hpx
        rw [hreply]
        obtain ⟨t, ht⟩ := readdir_entries_extends env selfIno up entries
          (readdir_explicit s d.state.children
            [⟨selfIno, 0, FileType.directory, "."⟩,
             ⟨d.state.parent, 1, FileType.directory, ".."⟩] 2).1
          (readdir_explicit s d.state.children
            [⟨selfIno, 0, FileType.directory, "."⟩,
             ⟨d.state.parent, 1, FileType.directory, ".."⟩] 2).2 s
        rw [ht, List.map_append]
        exact List.mem_append.mpr (Or.inl (hmem1 p hp hpx))

/-- C3 at a concrete input: the mapped directory with the explicit child
`f`, whose backing host directory also lists `f`, emits no name twice. -/
theorem C3_readdir_explicit_always_wins_witness :
    (((Dir.readdir exEnv exSysMapped 7).reply.map (fun e => e.name)).Nodup) ∧
    "f" ∈ (Dir.readdir exEnv exSysMapped 7).reply.map (fun e => e.name) := by
  have h := C3_readdir_explicit_always_wins exEnv exSysMapped 7
    exMappedDirWithChild rfl (by decide) (by decide) (by decide)
    (by
      intro up entries h1 h2
      injection h1 with h1'
      subst h1'
      have h3 : (Except.ok [Except.ok (⟨"f", .ok exFileMd⟩ : HostDirent)] :
          Except HostError (List (Except HostError HostDirent))) = .ok entries := by
        rw [← h2]
        rfl
      injection h3 with h3'
      subst h3'
      refine ⟨by decide, by decide, by decide⟩)
  exact ⟨h.1, h.2 ("f", ⟨5, true⟩) (by decide) rfl⟩
